import Mathlib

/-!
Shallow embedding of `sweepai/core/lexical_search.py`: a code-aware lexical
search engine (identifier tokenizer, n-gram expander, inverted index, BM25
scorer, search orchestrator, corpus builder), together with theorems checking
the specification's claims against it.

Python floats are modelled exactly: corpus statistics (`avg_doc_length`) as
rationals, BM25 scores as real numbers with `Real.log` for `math.log`.
Python dicts are modelled as insertion-ordered association lists.
-/

namespace Sweep

/-- Model of a whoosh `Token` as constructed by `tokenize_call`:
`Token(text=..., pos=..., startchar=..., end_pos=..., endchar=...)`. -/
structure Token where
  text : String
  pos : Nat
  startchar : Nat
  end_pos : Nat
  endchar : Nat
deriving DecidableEq, Repr

/-- Python `\w` word character, modelled on its ASCII fragment: letter,
digit or underscore. Python's `re` is Unicode-aware, so on inputs with
non-ASCII word characters (such as `é`) the real word runs start earlier than
this model's; theorems about token offsets therefore carry an all-ASCII
hypothesis, on which this predicate agrees with `\w` character for
character. (Note that non-ASCII word characters also behave like digits
inside `variable_pattern`, whose classes are the literal ASCII ranges: the
camel-case branch skips them and its offsets drift past them.) -/
def wordChar (c : Char) : Bool := c.isAlpha || c.isDigit || c = '_'

/-- Maximal `\w+` runs of a character list together with their start offsets:
the matches of `re.finditer(r"\b\w+\b", code)` (for `\w+` bounded by word
boundaries these are exactly the maximal word-character runs). -/
def wordRunsGo : List Char → Nat → List (Nat × List Char)
  | [], _ => []
  | c :: cs, i =>
    if wordChar c then
      match wordRunsGo cs (i + 1) with
      | (j, run) :: rest =>
        if j = i + 1 then (i, c :: run) :: rest else (i, [c]) :: (j, run) :: rest
      | [] => [(i, [c])]
    else wordRunsGo cs (i + 1)

def wordRuns (s : List Char) : List (Nat × List Char) := wordRunsGo s 0

/-- Python `text.split("_")`: split on every underscore, keeping empty parts. -/
def splitU : List Char → List (List Char)
  | [] => [[]]
  | c :: cs =>
    if c = '_' then [] :: splitU cs
    else
      match splitU cs with
      | p :: ps => (c :: p) :: ps
      | [] => [[c]]

/-- One attempt of Python's regex engine to match
`([A-Z][a-z]+|[a-z]+|[A-Z]+(?=[A-Z]|$))` (`variable_pattern`) at the head of
the input: alternatives are tried left to right, each greedy; the third
alternative backtracks its greedy `[A-Z]+` until the lookahead
(next character uppercase, or end of input) holds. -/
def matchAt : List Char → Option (List Char)
  | [] => none
  | c :: cs =>
    if c.isUpper then
      match cs with
      | c2 :: _ =>
        if c2.isLower then
          some (c :: cs.takeWhile Char.isLower)
        else if ((c :: cs).drop ((c :: cs).takeWhile Char.isUpper).length).isEmpty then
          some ((c :: cs).takeWhile Char.isUpper)
        else if 2 ≤ ((c :: cs).takeWhile Char.isUpper).length then
          some ((c :: cs).takeWhile Char.isUpper).dropLast
        else none
      | [] => some [c]
    else if c.isLower then some (c :: cs.takeWhile Char.isLower)
    else none

/-- Python `re.findall` scan loop for `variable_pattern`: try to match at the
current position; on success continue after the match, otherwise advance one
character. Each successful match consumes at least one character, so
`s.length` fuel suffices. -/
def findallGo : Nat → List Char → List (List Char)
  | 0, _ => []
  | _ + 1, [] => []
  | fuel + 1, c :: cs =>
    match matchAt (c :: cs) with
    | some m => m :: findallGo fuel ((c :: cs).drop m.length)
    | none => findallGo fuel cs

/-- Python `variable_pattern.findall(text)`. -/
def variableFindall (s : List Char) : List (List Char) := findallGo s.length s

/-- Python `check_valid_token(token)`: non-empty and longer than one character. -/
def check_valid_token (t : List Char) : Bool := 1 < t.length

/-- The snake-case branch of `tokenize_call`: emit one token per valid
underscore-separated part; the running `offset` advances by
`len(part) + 1` for every part, valid or not. -/
def emitSnake (spanStart : Nat) : List (List Char) → Nat → Nat → List Token × Nat
  | [], _, pos => ([], pos)
  | p :: ps, offset, pos =>
    if check_valid_token p then
      let t : Token :=
        { text := String.mk (p.map Char.toLower), pos := pos, startchar := spanStart + offset,
          end_pos := pos + 1, endchar := spanStart + p.length + offset }
      let rest := emitSnake spanStart ps (offset + p.length + 1) (pos + 1)
      (t :: rest.1, rest.2)
    else emitSnake spanStart ps (offset + p.length + 1) pos

/-- The camel/pascal-case branch of `tokenize_call`: emit one token per valid
matched part; the running `offset` advances by `len(part)` for every part
(matched-part length, not true source position). -/
def emitCamel (spanStart : Nat) : List (List Char) → Nat → Nat → List Token × Nat
  | [], _, pos => ([], pos)
  | p :: ps, offset, pos =>
    if check_valid_token p then
      let t : Token :=
        { text := String.mk (p.map Char.toLower), pos := pos, startchar := spanStart + offset,
          end_pos := pos + 1, endchar := spanStart + p.length + offset }
      let rest := emitCamel spanStart ps (offset + p.length) (pos + 1)
      (t :: rest.1, rest.2)
    else emitCamel spanStart ps (offset + p.length) pos

/-- Token emission for a single `\w+` run: underscore branch, camel-case
branch when `variable_pattern.findall` is non-empty, else the whole run. -/
def emitRun (spanStart : Nat) (text : List Char) (pos : Nat) : List Token × Nat :=
  if text.contains '_' then
    emitSnake spanStart (splitU text) 0 pos
  else
    match variableFindall text with
    | [] =>
      if check_valid_token text then
        ([{ text := String.mk (text.map Char.toLower), pos := pos, startchar := spanStart,
            end_pos := pos + 1, endchar := spanStart + text.length }], pos + 1)
      else ([], pos)
    | p :: ps => emitCamel spanStart (p :: ps) 0 pos

def tokenizeRuns : List (Nat × List Char) → Nat → List Token
  | [], _ => []
  | (start, run) :: rs, pos =>
    let er := emitRun start run pos
    er.1 ++ tokenizeRuns rs er.2

/-- Python `tokenize_call(code)`: split `code` into word runs and emit the tokens of
each run in order, threading the global `pos` counter. -/
def tokenize_call (code : String) : List Token :=
  tokenizeRuns (wordRuns code.data) 0

/-- The `construct_bigrams` loop body, carrying `prev_token`. -/
def bigramsGo : Token → List Token → List Token
  | _, [] => []
  | prev, t :: ts =>
    { text := prev.text ++ "_" ++ t.text, pos := prev.pos, startchar := prev.startchar,
      end_pos := t.end_pos, endchar := t.endchar } :: bigramsGo t ts

/-- Python `construct_bigrams(tokens)`: one joined token per adjacent pair. -/
def construct_bigrams : List Token → List Token
  | [] => []
  | t :: ts => bigramsGo t ts

/-- The `construct_trigrams` loop body, carrying `prev_prev_token` and `prev_token`. -/
def trigramsGo : Token → Token → List Token → List Token
  | _, _, [] => []
  | pp, p, t :: ts =>
    { text := pp.text ++ "_" ++ p.text ++ "_" ++ t.text, pos := pp.pos,
      startchar := pp.startchar, end_pos := t.end_pos, endchar := t.endchar } :: trigramsGo p t ts

/-- Python `construct_trigrams(tokens)`: one joined token per adjacent triple. -/
def construct_trigrams : List Token → List Token
  | a :: b :: ts => trigramsGo a b ts
  | _ => []

/-- Python `CodeTokenizer.__call__`: unigrams, then bigrams, then trigrams. -/
def codeTokens (s : String) : List Token :=
  let ts := tokenize_call s
  ts ++ construct_bigrams ts ++ construct_trigrams ts

/-- Python `compute_document_tokens(content)`: the token texts of the full pipeline. -/
def compute_document_tokens (content : String) : List String :=
  (codeTokens content).map Token.text

/-- Python `code[a:b].lower()` on the original source, as a character list. -/
def sliceLowerL (s : List Char) (a b : Nat) : List Char :=
  ((s.drop a).take (b - a)).map Char.toLower

/-- The separator-aware rejoin of `str.split("_")` parts: inverse of `splitU`. -/
def joinU : List (List Char) → List Char
  | [] => []
  | [p] => p
  | p :: ps => p ++ '_' :: joinU ps

/-! ### Python dicts as insertion-ordered association lists -/

/-- A dict read `d[key]`, as an option. -/
def alookup {β : Type _} : List (String × β) → String → Option β
  | [], _ => none
  | (k, v) :: ps, key => if k = key then some v else alookup ps key

/-- A dict write `d[key] = v`: update in place if present, else append. -/
def dictInsert {β : Type _} : List (String × β) → String → β → List (String × β)
  | [], key, v => [(key, v)]
  | (k, w) :: ps, key, v =>
    if k = key then (k, v) :: ps else (k, w) :: dictInsert ps key v

/-- On a `defaultdict(list)`: `d[key].append(e)`, creating `[]` if absent. -/
def postingAdd : List (String × List (String × Nat)) → String → String × Nat →
    List (String × List (String × Nat))
  | [], key, e => [(key, [e])]
  | (k, l) :: ps, key, e =>
    if k = key then (k, l ++ [e]) :: ps else (k, l) :: postingAdd ps key e

/-- One step of `collections.Counter`: increment in place or append with 1. -/
def bump : List (String × Nat) → String → List (String × Nat)
  | [], t => [(t, 1)]
  | (k, n) :: ps, t => if k = t then (k, n + 1) :: ps else (k, n) :: bump ps t

/-- Python `Counter(tokens)`: counts in first-occurrence order. -/
def countTokens (ts : List String) : List (String × Nat) := ts.foldl bump []

/-- Caller-supplied metadata dict, opaque to the engine. -/
abbrev Metadata := List (String × String)

/-! ### The inverted index -/

/-- The `CustomIndex.__init__` state: posting lists, document lengths, running
average length, the BM25 constants `k1`/`b`, and per-document metadata.
Float corpus statistics are modelled as exact rationals. -/
structure CustomIndex where
  inverted_index : List (String × List (String × Nat))
  doc_lengths : List (String × Nat)
  avg_doc_length : ℚ
  k1 : ℚ
  b : ℚ
  metadata : List (String × Metadata)
deriving DecidableEq, Repr

/-- A freshly constructed `CustomIndex()`. -/
def CustomIndex.new : CustomIndex :=
  { inverted_index := [], doc_lengths := [], avg_doc_length := 0,
    k1 := mkRat 6 5, b := mkRat 3 4, metadata := [] }

/-- Python `sum(self.doc_lengths.values())`. -/
def sumLens (l : List (String × Nat)) : Nat := (l.map Prod.snd).sum

/-- Python `CustomIndex.index_document`: store the document length, recompute the
average length over all documents so far, and append `(doc_id, freq)` to the
posting list of every token of the document. -/
def CustomIndex.index_document (idx : CustomIndex) (doc_id : String)
    (tokens : List String) : CustomIndex :=
  let dl := dictInsert idx.doc_lengths doc_id tokens.length
  let avg : ℚ := mkRat (sumLens dl) dl.length
  let inv := (countTokens tokens).foldl
    (fun inv p => postingAdd inv p.1 (doc_id, p.2)) idx.inverted_index
  { idx with doc_lengths := dl, avg_doc_length := avg, inverted_index := inv }

/-- Python `CustomIndex.add_document`: `doc_id = title`, store metadata, index. -/
def CustomIndex.add_document (idx : CustomIndex) (title : String)
    (tokens : List String) (metadata : Metadata) : CustomIndex :=
  CustomIndex.index_document
    { idx with metadata := dictInsert idx.metadata title metadata } title tokens

/-- An index reached by a sequence of `add_document` calls on a fresh index. -/
def buildIndex (docs : List (String × List String × Metadata)) : CustomIndex :=
  docs.foldl (fun idx d => idx.add_document d.1 d.2.1 d.2.2) CustomIndex.new

/-- Python `CustomIndex.bm25(doc_id, term, term_freq)`. `math.log` is `Real.log`.
The two dict reads are modelled with defaults (`[]`, `0`): `search_index`
reaches `bm25` only with a term present in `inverted_index` (so the
defaultdict read returns its stored list) and, as proved for reachable
indexes, a `doc_id` present in `doc_lengths`. -/
noncomputable def CustomIndex.bm25 (idx : CustomIndex) (doc_id term : String)
    (term_freq : Nat) : ℝ :=
  Real.log
      (((idx.doc_lengths.length : ℝ) -
            ((((alookup idx.inverted_index term).getD []).length : ℕ) : ℝ) + 1/2) /
          (((((alookup idx.inverted_index term).getD []).length : ℕ) : ℝ) + 1/2) + 1) *
    ((((idx.k1 : ℝ) + 1) * (term_freq : ℝ)) /
      ((term_freq : ℝ) + (idx.k1 : ℝ) *
        (1 - (idx.b : ℝ) + (idx.b : ℝ) *
          (((((alookup idx.doc_lengths doc_id).getD 0 : ℕ) : ℝ)) / ((idx.avg_doc_length : ℚ) : ℝ)))))

/-- The update `scores[doc_id] += v` on a `defaultdict(float)`. -/
noncomputable def bumpScore : List (String × ℝ) → String → ℝ → List (String × ℝ)
  | [], d, v => [(d, v)]
  | (k, w) :: ps, d, v =>
    if k = d then (k, w + v) :: ps else (k, w) :: bumpScore ps d v

/-- Insert into a list sorted by non-increasing score, after strictly greater
scores and before equal ones (stability of Python's `sorted`). -/
noncomputable def insertDesc (x : String × ℝ) : List (String × ℝ) → List (String × ℝ)
  | [] => [x]
  | y :: ys => if x.2 < y.2 then y :: insertDesc x ys else x :: y :: ys

/-- Python `sorted(scores.items(), key=lambda x: x[1], reverse=True)`: stable sort
by non-increasing score. -/
noncomputable def sortDesc : List (String × ℝ) → List (String × ℝ)
  | [] => []
  | x :: xs => insertDesc x (sortDesc xs)

/-- The query-side tokenization `[token.text for token in self.tokenizer(query)]`. -/
def queryTokens (query : String) : List String := (codeTokens query).map Token.text

/-- Python `self.inverted_index.get(token, [])`: the posting list of a token. -/
def postings (idx : CustomIndex) (t : String) : List (String × Nat) :=
  (alookup idx.inverted_index t).getD []

/-- The accumulated score of one doc in the `scores` defaultdict (0 if absent). -/
noncomputable def valueOf (sc : List (String × ℝ)) (d : String) : ℝ :=
  (alookup sc d).getD 0

/-- The summed-BM25 score of document `d` for query `q`: over every occurrence
of a query token, the `bm25` contributions of the postings for `d`. -/
noncomputable def totalScore (idx : CustomIndex) (q : String) (d : String) : ℝ :=
  ((queryTokens q).map (fun t =>
    (((postings idx t).filter (fun p => p.1 == d)).map (fun p => idx.bm25 d t p.2)).sum)).sum

/-- The `scores` defaultdict of `CustomIndex.search_index` after both loops:
for every query token, for every posting `(doc_id, term_freq)` of that token,
`scores[doc_id] += self.bm25(doc_id, token, term_freq)`. -/
noncomputable def scoresOf (idx : CustomIndex) (query : String) : List (String × ℝ) :=
  (queryTokens query).foldl
    (fun sc token =>
      (postings idx token).foldl
        (fun sc2 p => bumpScore sc2 p.1 (idx.bm25 p.1 token p.2)) sc)
    []

/-- Python `CustomIndex.search_index(query)`: tokenize the query with the full
pipeline, sum the BM25 contribution of every posting of every query token,
sort by descending score, attach metadata. -/
noncomputable def CustomIndex.search_index (idx : CustomIndex) (query : String) :
    List (String × ℝ × Metadata) :=
  (sortDesc (scoresOf idx query)).map
    (fun p => (p.1, p.2, (alookup idx.metadata p.1).getD []))

/-- Python `max(vals)` over a non-empty list (`1` matches the code's unused default). -/
noncomputable def listMax : List ℝ → ℝ
  | [] => 1
  | x :: xs => xs.foldl max x

/-- Python `min(vals)` over a non-empty list (`0` matches the code's unused default). -/
noncomputable def listMin : List ℝ → ℝ
  | [] => 0
  | x :: xs => xs.foldl min x

/-- The orchestrator's collapse of `CustomIndex.search_index` results to the
first score seen per doc_id (`if doc_id not in res: res[doc_id] = score`). -/
noncomputable def rawRes (idx : CustomIndex) (query : String) : List (String × ℝ) :=
  (idx.search_index query).foldl
    (fun r t => if (alookup r t.1).isSome then r else r ++ [(t.1, t.2.1)]) []

/-- Python `min_score = min(res.values()) if min(res.values()) < max_score else 0`. -/
noncomputable def minScore (vals : List ℝ) : ℝ :=
  if listMin vals < listMax vals then listMin vals else 0

/-- Module-level `search_index(query, index)` (the orchestrator): `{}` for an
absent index; otherwise collapse to the first score seen per doc_id and
min-max normalize. The `max_score - min_score = 0` branch models the
`ZeroDivisionError` that the function's own `except Exception` turns into
`{}`; `except SystemExit: raise` re-raises, see `searchIndexHandler`. -/
noncomputable def search_index (query : String) (index : Option CustomIndex) :
    List (String × ℝ) :=
  match index with
  | none => []
  | some idx =>
    if (rawRes idx query).isEmpty then []
    else if listMax ((rawRes idx query).map Prod.snd) -
        minScore ((rawRes idx query).map Prod.snd) = 0 then []
    else (rawRes idx query).map (fun p =>
      (p.1, (p.2 - minScore ((rawRes idx query).map Prod.snd)) /
        (listMax ((rawRes idx query).map Prod.snd) -
          minScore ((rawRes idx query).map Prod.snd))))

/-- Python exceptions relevant to this module. -/
inductive PyExc
  | systemExit
  | fileNotFound
  | other (msg : String)
deriving DecidableEq, Repr

/-- The `try/except` structure of the orchestrator `search_index`, with the
body's outcome abstracted: a normal result passes through, `SystemExit` is
re-raised, any other exception becomes the empty mapping. -/
def searchIndexHandler (body : Except PyExc (List (String × ℝ))) :
    Except PyExc (List (String × ℝ)) :=
  match body with
  | .ok r => .ok r
  | .error .systemExit => .error .systemExit
  | .error _ => .ok []

/-- Modelled from the spec: `Snippet` (defined in `sweepai.core.entities`,
which is not under `src/`) carries a file path, the snippet's content and its
start/end line numbers; `get_snippet(add_ellipsis=False, add_lines=False)`
returns the snippet's content. -/
structure Snippet where
  file_path : String
  content : String
  start : Nat
  stop : Nat
deriving DecidableEq, Repr

/-- The `Document` dataclass (`end` is `stop`). -/
structure Document where
  title : String
  content : String
  start : Nat
  stop : Nat
deriving DecidableEq, Repr

/-- Python `snippets_to_docs`: `title = snippet.file_path[len_repo_cache_dir:]`. -/
def snippets_to_docs (snippets : List Snippet) (len_repo_cache_dir : Nat) :
    List Document :=
  snippets.map (fun s =>
    { title := s.file_path.drop len_repo_cache_dir, content := s.content,
      start := s.start, stop := s.stop })

/-- The denotation string of a document. -/
def docTitleKey (d : Document) : String :=
  d.title ++ ":" ++ toString d.start ++ "-" ++ toString d.stop

/-- Python `prepare_index_from_snippets` on the exception-free path: `None` for an
empty document list, else tokenize every document (first pass) and add every
document to a fresh index (second pass). -/
def prepare_index_from_snippets (snippets : List Snippet)
    (len_repo_cache_dir : Nat) : Option CustomIndex :=
  let all_docs := snippets_to_docs snippets len_repo_cache_dir
  if all_docs.length = 0 then none
  else
    let all_tokens := all_docs.map (fun d => compute_document_tokens d.content)
    some ((all_docs.zip all_tokens).foldl
      (fun idx p => idx.add_document (docTitleKey p.1) p.2 []) CustomIndex.new)

/-- The builder's first (tokenization) pass with a fallible tokenizer:
stops at the first raised exception. -/
def firstPassExc (tok : String → Except PyExc (List String)) :
    List Document → Except PyExc (List (List String))
  | [] => .ok []
  | d :: ds =>
    match tok d.content with
    | .error e => .error e
    | .ok ts =>
      match firstPassExc tok ds with
      | .error e => .error e
      | .ok rest => .ok (ts :: rest)

/-- Python `prepare_index_from_snippets` with its `try/except FileNotFoundError`
modelled over a fallible tokenizer: a `FileNotFoundError` anywhere in the
`try` block is caught and the function returns the index as it stands (the
exception interrupts the first pass, before any `add_document` call, so that
index holds no documents); any other exception propagates. -/
def prepareIndexExc (tok : String → Except PyExc (List String))
    (snippets : List Snippet) (len_repo_cache_dir : Nat) :
    Except PyExc (Option CustomIndex) :=
  if (snippets_to_docs snippets len_repo_cache_dir).length = 0 then .ok none
  else
    match firstPassExc tok (snippets_to_docs snippets len_repo_cache_dir) with
    | .ok all_tokens =>
      .ok (some (((snippets_to_docs snippets len_repo_cache_dir).zip all_tokens).foldl
        (fun idx p => idx.add_document (docTitleKey p.1) p.2 []) CustomIndex.new))
    | .error .fileNotFound => .ok (some CustomIndex.new)
    | .error e => .error e

/-- A corpus that adds the same title twice, the second time with no tokens:
the duplicate-insertion corruption case. -/
def w10docs : List (String × List String × Metadata) :=
  [("a", (["xx"], [])), ("a", ([], []))]

/-- A concrete one-document corpus for the C2 witness. -/
def w2docs : List (String × List String × Metadata) := [("d", (["aa"], []))]

/-- A concrete two-document index for the C3 witness: `"d"` has one token,
`"e"` has three. -/
def w3docs : List (String × List String × Metadata) :=
  [("d", (["aa"], [])), ("e", (["aa", "bb", "cc"], []))]

/-- The well-formedness invariant of reachable indexes: document-length keys
are distinct, the stored average is the sum of stored lengths over their
count, and every posting `(d, tf)` has `tf ≥ 1`, a stored length ≥ 1 for `d`,
and no duplicated doc_id inside one posting list. -/
def IndexInv (idx : CustomIndex) : Prop :=
  (idx.doc_lengths.map Prod.fst).Nodup ∧
  idx.avg_doc_length = mkRat (sumLens idx.doc_lengths) idx.doc_lengths.length ∧
  ∀ t : String, ((postings idx t).map Prod.fst).Nodup ∧
    ∀ d tf, (d, tf) ∈ postings idx t →
      1 ≤ tf ∧ ∃ l, alookup idx.doc_lengths d = some l ∧ 1 ≤ l

/-! ### Theorems -/

/-- A bigram token from an adjacent pair. -/
def mkBigram (p : Token × Token) : Token :=
  { text := p.1.text ++ "_" ++ p.2.text, pos := p.1.pos, startchar := p.1.startchar,
    end_pos := p.2.end_pos, endchar := p.2.endchar }

/-- A trigram token from an adjacent triple. -/
def mkTrigram (p : Token × Token × Token) : Token :=
  { text := p.1.text ++ "_" ++ p.2.1.text ++ "_" ++ p.2.2.text, pos := p.1.pos,
    startchar := p.1.startchar, end_pos := p.2.2.end_pos, endchar := p.2.2.endchar }

lemma bigramsGo_eq (p : Token) (ts : List Token) :
    bigramsGo p ts = ((p :: ts).zip ts).map mkBigram := by
  induction ts generalizing p with
  | nil => rfl
  | cons t ts ih => simp [bigramsGo, ih, mkBigram]

lemma trigramsGo_eq (a b : Token) (ts : List Token) :
    trigramsGo a b ts = ((a :: b :: ts).zip ((b :: ts).zip ts)).map mkTrigram := by
  induction ts generalizing a b with
  | nil => rfl
  | cons t ts ih => simp [trigramsGo, ih, mkTrigram]

/-- C4: the tokenizer's concrete equalities: `"myVariableName"` splits to
`my, variable, name`; `"MY_CONST_VALUE"` to `my, const, value`; `"a"` is
dropped by the length filter; `"x1_y2"` splits to `x1, y2`. -/
theorem C4_tokenizer_examples :
    (tokenize_call "myVariableName").map Token.text = ["my", "variable", "name"] ∧
    (tokenize_call "MY_CONST_VALUE").map Token.text = ["my", "const", "value"] ∧
    (tokenize_call "a").map Token.text = [] ∧
    (tokenize_call "x1_y2").map Token.text = ["x1", "y2"] :=
  ⟨by decide, by decide, by decide, by decide⟩

/-- C5: `construct_bigrams` emits exactly one token per adjacent pair, joining
the texts with `"_"`, taking `pos`/`startchar` from the first token and
`endchar` from the second, in input order; `construct_trigrams` does the same
over adjacent triples; fewer than 2 (resp. 3) tokens give the empty list. -/
theorem C5_ngram_construction (ts : List Token) :
    construct_bigrams ts = (ts.zip ts.tail).map mkBigram ∧
    construct_trigrams ts = (ts.zip (ts.tail.zip ts.tail.tail)).map mkTrigram ∧
    (ts.length < 2 → construct_bigrams ts = []) ∧
    (ts.length < 3 → construct_trigrams ts = []) := by
  match ts with
  | [] => exact ⟨rfl, rfl, fun _ => rfl, fun _ => rfl⟩
  | [t] => exact ⟨rfl, rfl, fun _ => rfl, fun _ => rfl⟩
  | a :: b :: ts =>
    refine ⟨?_, ?_, ?_, ?_⟩
    · simpa [construct_bigrams] using bigramsGo_eq a (b :: ts)
    · simpa [construct_trigrams] using trigramsGo_eq a b ts
    · intro h
      simp only [List.length_cons] at h
      exact absurd h (by omega)
    · intro h
      simp only [List.length_cons] at h
      have hts : ts = [] := List.length_eq_zero.mp (by omega)
      subst hts; rfl

/-- Witness for C5 at the empty token list. -/
theorem C5_ngram_construction_witness :
    construct_bigrams ([] : List Token) = [] ∧
    construct_trigrams ([] : List Token) = [] :=
  ⟨(C5_ngram_construction []).2.2.1 (by decide),
   (C5_ngram_construction []).2.2.2 (by decide)⟩

/-- C6: after every single `add_document` call, for every sequence of prior
insertions, `avg_doc_length` equals the sum of the stored document lengths
divided by their number — the average is recomputed on each insertion. -/
theorem C6_avg_doc_length_recomputed (docs : List (String × List String × Metadata))
    (title : String) (tokens : List String) (md : Metadata) :
    ((buildIndex docs).add_document title tokens md).avg_doc_length =
      (sumLens ((buildIndex docs).add_document title tokens md).doc_lengths : ℚ) /
        (((buildIndex docs).add_document title tokens md).doc_lengths.length : ℚ) := by
  simp only [CustomIndex.add_document, CustomIndex.index_document]
  rw [Rat.mkRat_eq_div]
  push_cast
  ring

/-- The idf factor is positive whenever the document frequency does not
exceed the number of documents. -/
lemma idf_pos (N df : ℕ) (h : df ≤ N) :
    0 < Real.log (((N : ℝ) - (df : ℝ) + 1/2) / ((df : ℝ) + 1/2) + 1) := by
  apply Real.log_pos
  have hdN : (df : ℝ) ≤ (N : ℝ) := Nat.cast_le.mpr h
  have h1 : (0:ℝ) < (N : ℝ) - (df : ℝ) + 1/2 := by linarith
  have h2 : (0:ℝ) < (df : ℝ) + 1/2 := by positivity
  have := div_pos h1 h2
  linarith

/-- The BM25 term-frequency component is strictly increasing in the frequency. -/
lemma bm25_core_mono (L K C x y : ℝ) (hL : 0 < L) (hK : 0 < K) (hC : 0 < C)
    (hx : 0 ≤ x) (hxy : x < y) :
    L * (K * x / (x + C)) < L * (K * y / (y + C)) := by
  apply mul_lt_mul_of_pos_left _ hL
  rw [div_lt_div_iff (by linarith) (by linarith)]
  nlinarith [mul_pos (mul_pos hK hC) (sub_pos.mpr hxy)]

/-- The BM25 term-frequency component is non-increasing in the length
normalization summand of its denominator. -/
lemma bm25_core_anti (L K C₁ C₂ x : ℝ) (hL : 0 ≤ L) (hK : 0 ≤ K) (hx : 0 ≤ x)
    (hC₁ : 0 < C₁) (hC : C₁ ≤ C₂) :
    L * (K * x / (x + C₂)) ≤ L * (K * x / (x + C₁)) := by
  apply mul_le_mul_of_nonneg_left _ hL
  rw [div_le_div_iff (by linarith) (by linarith)]
  have key : 0 ≤ K * x * (C₂ - C₁) :=
    mul_nonneg (mul_nonneg hK hx) (by linarith)
  nlinarith

/-- C3: with the code's constants, for an index whose posting list for `term`
is no longer than the document count (as when every document was added at most
once) and whose average document length is positive: `bm25` is strictly
increasing in `term_freq` over positive frequencies for a fixed document, and
non-increasing in the document's stored length for a fixed frequency. -/
theorem C3_bm25_monotonicity (idx : CustomIndex) (term : String)
    (hk : idx.k1 = 6/5) (hb : idx.b = 3/4)
    (hdf : ((alookup idx.inverted_index term).getD []).length ≤ idx.doc_lengths.length)
    (havg : 0 < idx.avg_doc_length) :
    (∀ (d : String) (tf₁ tf₂ : ℕ), 0 < tf₁ → tf₁ < tf₂ →
      idx.bm25 d term tf₁ < idx.bm25 d term tf₂) ∧
    (∀ (d₁ d₂ : String) (tf : ℕ),
      (alookup idx.doc_lengths d₁).getD 0 ≤ (alookup idx.doc_lengths d₂).getD 0 →
      idx.bm25 d₂ term tf ≤ idx.bm25 d₁ term tf) := by
  have havgR : (0:ℝ) < ((idx.avg_doc_length : ℚ) : ℝ) := by exact_mod_cast havg
  have hidf := idf_pos idx.doc_lengths.length
    ((alookup idx.inverted_index term).getD []).length hdf
  constructor
  · intro d tf₁ tf₂ h1 h12
    simp only [CustomIndex.bm25, hk, hb]
    have hdl : (0:ℝ) ≤ (((alookup idx.doc_lengths d).getD 0 : ℕ) : ℝ) / ((idx.avg_doc_length : ℚ) : ℝ) :=
      div_nonneg (Nat.cast_nonneg _) havgR.le
    apply bm25_core_mono
    · exact hidf
    · norm_num
    · nlinarith
    · exact Nat.cast_nonneg _
    · exact_mod_cast h12
  · intro d₁ d₂ tf hl
    simp only [CustomIndex.bm25, hk, hb]
    have hdl₁ : (0:ℝ) ≤ (((alookup idx.doc_lengths d₁).getD 0 : ℕ) : ℝ) / ((idx.avg_doc_length : ℚ) : ℝ) :=
      div_nonneg (Nat.cast_nonneg _) havgR.le
    have hdiv : (((alookup idx.doc_lengths d₁).getD 0 : ℕ) : ℝ) / ((idx.avg_doc_length : ℚ) : ℝ) ≤
        (((alookup idx.doc_lengths d₂).getD 0 : ℕ) : ℝ) / ((idx.avg_doc_length : ℚ) : ℝ) :=
      (div_le_div_right havgR).mpr (Nat.cast_le.mpr hl)
    exact bm25_core_anti _ _ _ _ _ hidf.le (by norm_num) (Nat.cast_nonneg _)
      (by nlinarith) (by nlinarith)

lemma foldl_add_document_k1_b (docs : List (String × List String × Metadata))
    (idx : CustomIndex) :
    (docs.foldl (fun i d => i.add_document d.1 d.2.1 d.2.2) idx).k1 = idx.k1 ∧
    (docs.foldl (fun i d => i.add_document d.1 d.2.1 d.2.2) idx).b = idx.b := by
  induction docs generalizing idx with
  | nil => exact ⟨rfl, rfl⟩
  | cons d ds ih => exact ih _

/-- Function `add_document` never changes the BM25 constants set by the constructor. -/
lemma buildIndex_k1_b (docs : List (String × List String × Metadata)) :
    (buildIndex docs).k1 = 6/5 ∧ (buildIndex docs).b = 3/4 := by
  have h := foldl_add_document_k1_b docs CustomIndex.new
  rw [buildIndex, h.1, h.2]
  constructor <;> norm_num [CustomIndex.new, mkRat, Rat.normalize]

/-- Witness for C3: on `w3docs`, raising the frequency of `"aa"` in `"d"`
from 1 to 2 strictly raises the score, and the longer `"e"` scores no more
than `"d"` at frequency 1. -/
theorem C3_bm25_monotonicity_witness :
    (0:ℚ) < (buildIndex w3docs).avg_doc_length ∧
    (buildIndex w3docs).bm25 "d" "aa" 1 < (buildIndex w3docs).bm25 "d" "aa" 2 ∧
    (buildIndex w3docs).bm25 "e" "aa" 1 ≤ (buildIndex w3docs).bm25 "d" "aa" 1 := by
  have h := C3_bm25_monotonicity (buildIndex w3docs) "aa"
    (buildIndex_k1_b w3docs).1 (buildIndex_k1_b w3docs).2 (by decide) (by decide)
  exact ⟨by decide, h.1 "d" 1 2 (by decide) (by decide), h.2 "d" "e" 1 (by decide)⟩

/-! ### C1: correctness of `CustomIndex.search_index` -/

lemma alookup_bumpScore_self (sc : List (String × ℝ)) (d : String) (v : ℝ) :
    alookup (bumpScore sc d v) d = some ((alookup sc d).getD 0 + v) := by
  induction sc with
  | nil => simp [bumpScore, alookup]
  | cons p ps ih =>
    obtain ⟨k, w⟩ := p
    by_cases h : k = d
    · subst h; simp [bumpScore, alookup]
    · simp [bumpScore, alookup, h, ih]

lemma alookup_bumpScore_other (sc : List (String × ℝ)) (d e : String) (v : ℝ)
    (h : e ≠ d) : alookup (bumpScore sc d v) e = alookup sc e := by
  have hde : ¬ d = e := fun hde => h hde.symm
  induction sc with
  | nil => simp [bumpScore, alookup, hde]
  | cons p ps ih =>
    obtain ⟨k, w⟩ := p
    by_cases hk : k = d
    · subst hk
      simp [bumpScore, alookup, hde]
    · simp [bumpScore, alookup, hk, ih]

lemma valueOf_bumpScore_self (sc : List (String × ℝ)) (d : String) (v : ℝ) :
    valueOf (bumpScore sc d v) d = valueOf sc d + v := by
  simp [valueOf, alookup_bumpScore_self]

lemma valueOf_bumpScore_other (sc : List (String × ℝ)) (d e : String) (v : ℝ)
    (h : e ≠ d) : valueOf (bumpScore sc d v) e = valueOf sc e := by
  simp [valueOf, alookup_bumpScore_other sc d e v h]

lemma alookup_isSome_iff {β : Type _} (sc : List (String × β)) (e : String) :
    (alookup sc e).isSome ↔ e ∈ sc.map Prod.fst := by
  induction sc with
  | nil => simp [alookup]
  | cons p ps ih =>
    obtain ⟨k, w⟩ := p
    by_cases h : k = e
    · subst h; simp [alookup]
    · have hek : ¬ e = k := fun he => h he.symm
      simp [alookup, h, ih, hek]

lemma isSome_alookup_bumpScore (sc : List (String × ℝ)) (d e : String) (v : ℝ) :
    (alookup (bumpScore sc d v) e).isSome ↔ (alookup sc e).isSome ∨ e = d := by
  by_cases h : e = d
  · subst h; simp [alookup_bumpScore_self]
  · simp [alookup_bumpScore_other sc d e v h, h]

lemma bumpScore_nodup (sc : List (String × ℝ)) (d : String) (v : ℝ)
    (h : (sc.map Prod.fst).Nodup) : ((bumpScore sc d v).map Prod.fst).Nodup := by
  induction sc with
  | nil => simp [bumpScore]
  | cons p ps ih =>
    obtain ⟨k, w⟩ := p
    simp only [List.map_cons, List.nodup_cons] at h
    by_cases hk : k = d
    · subst hk
      simpa [bumpScore, List.nodup_cons] using h
    · simp only [bumpScore, if_neg hk, List.map_cons, List.nodup_cons]
      refine ⟨?_, ih h.2⟩
      intro hmem
      have : (alookup (bumpScore ps d v) k).isSome := by
        rw [alookup_isSome_iff]; exact hmem
      rcases (isSome_alookup_bumpScore ps d k v).mp this with hs | rfl
      · exact h.1 ((alookup_isSome_iff ps k).mp hs)
      · exact hk rfl

lemma alookup_eq_some_iff_mem {β : Type _} (sc : List (String × β))
    (h : (sc.map Prod.fst).Nodup) (d : String) (s : β) :
    alookup sc d = some s ↔ (d, s) ∈ sc := by
  induction sc with
  | nil => simp [alookup]
  | cons p ps ih =>
    obtain ⟨k, w⟩ := p
    simp only [List.map_cons, List.nodup_cons] at h
    by_cases hk : k = d
    · subst hk
      rw [show alookup ((k, w) :: ps) k = some w by simp [alookup]]
      simp only [List.mem_cons, Option.some_inj, Prod.mk.injEq]
      constructor
      · rintro rfl; exact Or.inl ⟨trivial, rfl⟩
      · rintro (⟨-, rfl⟩ | hmem)
        · rfl
        · exact absurd (List.mem_map_of_mem Prod.fst hmem) h.1
    · rw [show alookup ((k, w) :: ps) d = alookup ps d by simp [alookup, hk]]
      rw [ih h.2]
      simp only [List.mem_cons, Prod.mk.injEq]
      constructor
      · exact Or.inr
      · rintro (⟨rfl, -⟩ | hmem)
        · exact absurd rfl hk
        · exact hmem

lemma inner_value (idx : CustomIndex) (t : String) (ps : List (String × Nat)) :
    ∀ (sc : List (String × ℝ)) (d : String),
    valueOf (ps.foldl (fun sc2 p => bumpScore sc2 p.1 (idx.bm25 p.1 t p.2)) sc) d =
      valueOf sc d +
        ((ps.filter (fun p => p.1 == d)).map (fun p => idx.bm25 d t p.2)).sum := by
  induction ps with
  | nil => intro sc d; simp
  | cons p ps ih =>
    intro sc d
    simp only [List.foldl_cons]
    rw [ih]
    by_cases h : p.1 = d
    · subst h
      simp [valueOf_bumpScore_self, List.filter_cons, add_assoc]
    · have hne : decide (p.1 = d) = false := decide_eq_false h
      simp [valueOf_bumpScore_other sc p.1 d _ (fun hd => h hd.symm),
        List.filter_cons, h]

lemma inner_isSome (idx : CustomIndex) (t : String) (ps : List (String × Nat)) :
    ∀ (sc : List (String × ℝ)) (d : String),
    (alookup (ps.foldl (fun sc2 p => bumpScore sc2 p.1 (idx.bm25 p.1 t p.2)) sc) d).isSome
      ↔ (alookup sc d).isSome ∨ ∃ tf, (d, tf) ∈ ps := by
  induction ps with
  | nil => intro sc d; simp
  | cons p ps ih =>
    intro sc d
    simp only [List.foldl_cons]
    rw [ih]
    rw [isSome_alookup_bumpScore]
    simp only [List.mem_cons, Prod.ext_iff]
    constructor
    · rintro ((hs | rfl) | ⟨tf, htf⟩)
      · exact Or.inl hs
      · exact Or.inr ⟨p.2, Or.inl ⟨rfl, rfl⟩⟩
      · exact Or.inr ⟨tf, Or.inr htf⟩
    · rintro (hs | ⟨tf, ⟨h1, -⟩ | htf⟩)
      · exact Or.inl (Or.inl hs)
      · exact Or.inl (Or.inr h1)
      · exact Or.inr ⟨tf, htf⟩

lemma inner_nodup (idx : CustomIndex) (t : String) (ps : List (String × Nat)) :
    ∀ (sc : List (String × ℝ)),
    (sc.map Prod.fst).Nodup →
    (((ps.foldl (fun sc2 p => bumpScore sc2 p.1 (idx.bm25 p.1 t p.2)) sc)).map
      Prod.fst).Nodup := by
  induction ps with
  | nil => intro sc h; simpa using h
  | cons p ps ih =>
    intro sc h
    exact ih _ (bumpScore_nodup _ _ _ h)

lemma scoresOf_value (idx : CustomIndex) (q : String) (d : String) :
    valueOf (scoresOf idx q) d = totalScore idx q d := by
  rw [scoresOf, totalScore]
  generalize queryTokens q = toks
  suffices h : ∀ (sc : List (String × ℝ)),
      valueOf (toks.foldl (fun sc token => (postings idx token).foldl
          (fun sc2 p => bumpScore sc2 p.1 (idx.bm25 p.1 token p.2)) sc) sc) d =
        valueOf sc d + ((toks.map (fun t =>
          (((postings idx t).filter (fun p => p.1 == d)).map
            (fun p => idx.bm25 d t p.2)).sum)).sum) by
    simpa [valueOf, alookup] using h []
  induction toks with
  | nil => intro sc; simp
  | cons t ts ih =>
    intro sc
    simp only [List.foldl_cons, List.map_cons, List.sum_cons]
    rw [ih, inner_value]
    ring

lemma scoresOf_isSome (idx : CustomIndex) (q : String) (d : String) :
    (alookup (scoresOf idx q) d).isSome ↔
      ∃ t ∈ queryTokens q, ∃ tf, (d, tf) ∈ postings idx t := by
  rw [scoresOf]
  generalize queryTokens q = toks
  suffices h : ∀ (sc : List (String × ℝ)),
      (alookup (toks.foldl (fun sc token => (postings idx token).foldl
          (fun sc2 p => bumpScore sc2 p.1 (idx.bm25 p.1 token p.2)) sc) sc) d).isSome ↔
        (alookup sc d).isSome ∨ ∃ t ∈ toks, ∃ tf, (d, tf) ∈ postings idx t by
    simpa [alookup] using h []
  induction toks with
  | nil => intro sc; simp
  | cons t ts ih =>
    intro sc
    simp only [List.foldl_cons]
    rw [ih, inner_isSome]
    simp only [List.mem_cons]
    constructor
    · rintro ((hs | ⟨tf, htf⟩) | ⟨t', ht', tf, htf⟩)
      · exact Or.inl hs
      · exact Or.inr ⟨t, Or.inl rfl, tf, htf⟩
      · exact Or.inr ⟨t', Or.inr ht', tf, htf⟩
    · rintro (hs | ⟨t', rfl | ht', tf, htf⟩)
      · exact Or.inl (Or.inl hs)
      · exact Or.inl (Or.inr ⟨tf, htf⟩)
      · exact Or.inr ⟨t', ht', tf, htf⟩

lemma scoresOf_nodup (idx : CustomIndex) (q : String) :
    ((scoresOf idx q).map Prod.fst).Nodup := by
  rw [scoresOf]
  generalize queryTokens q = toks
  suffices h : ∀ (sc : List (String × ℝ)),
      (sc.map Prod.fst).Nodup →
      ((toks.foldl (fun sc token => (postings idx token).foldl
          (fun sc2 p => bumpScore sc2 p.1 (idx.bm25 p.1 token p.2)) sc) sc).map
        Prod.fst).Nodup by
    exact h [] (by simp)
  induction toks with
  | nil => intro sc h; simpa using h
  | cons t ts ih =>
    intro sc h
    exact ih _ (inner_nodup idx t (postings idx t) sc h)

lemma insertDesc_perm (x : String × ℝ) (l : List (String × ℝ)) :
    (insertDesc x l).Perm (x :: l) := by
  induction l with
  | nil => exact List.Perm.refl _
  | cons y ys ih =>
    simp only [insertDesc]
    by_cases h : x.2 < y.2
    · rw [if_pos h]
      exact (ih.cons y).trans (List.Perm.swap x y ys)
    · rw [if_neg h]

lemma sortDesc_perm (l : List (String × ℝ)) : (sortDesc l).Perm l := by
  induction l with
  | nil => exact List.Perm.refl _
  | cons x xs ih =>
    exact (insertDesc_perm x (sortDesc xs)).trans (ih.cons x)

lemma insertDesc_sorted (x : String × ℝ) (l : List (String × ℝ))
    (h : l.Pairwise (fun a b => b.2 ≤ a.2)) :
    (insertDesc x l).Pairwise (fun a b => b.2 ≤ a.2) := by
  induction l with
  | nil => simp [insertDesc]
  | cons y ys ih =>
    rcases List.pairwise_cons.mp h with ⟨hy, hys⟩
    simp only [insertDesc]
    by_cases hlt : x.2 < y.2
    · rw [if_pos hlt]
      refine List.pairwise_cons.mpr ⟨?_, ih hys⟩
      intro b hb
      rcases List.mem_cons.mp ((insertDesc_perm x ys).mem_iff.mp hb) with rfl | hbys
      · exact hlt.le
      · exact hy b hbys
    · rw [if_neg hlt]
      refine List.pairwise_cons.mpr ⟨?_, h⟩
      intro b hb
      rcases List.mem_cons.mp hb with rfl | hbys
      · exact le_of_not_lt hlt
      · exact le_trans (hy b hbys) (le_of_not_lt hlt)

lemma sortDesc_sorted (l : List (String × ℝ)) :
    (sortDesc l).Pairwise (fun a b => b.2 ≤ a.2) := by
  induction l with
  | nil => simp [sortDesc]
  | cons x xs ih => exact insertDesc_sorted x (sortDesc xs) ih

/-- C1: `CustomIndex.search_index` tokenizes the query with the indexing
pipeline; its result is ordered by non-increasing score; it contains exactly
the documents appearing in some matching posting list; and every entry is the
triple of the doc_id, its summed per-occurrence BM25 score, and its stored
metadata. -/
theorem C1_search_index_correct (idx : CustomIndex) (q : String) :
    (idx.search_index q).Pairwise (fun a b => b.2.1 ≤ a.2.1) ∧
    (∀ d : String, (∃ s m, (d, s, m) ∈ idx.search_index q) ↔
      ∃ t ∈ queryTokens q, ∃ tf, (d, tf) ∈ postings idx t) ∧
    idx.search_index q = (idx.search_index q).map
      (fun p => (p.1, totalScore idx q p.1, (alookup idx.metadata p.1).getD [])) := by
  refine ⟨?_, ?_, ?_⟩
  · rw [CustomIndex.search_index]
    exact List.Pairwise.map _ (fun a b hab => hab) (sortDesc_sorted (scoresOf idx q))
  · intro d
    constructor
    · rintro ⟨s, m, hmem⟩
      rw [CustomIndex.search_index] at hmem
      rcases List.mem_map.mp hmem with ⟨p, hp, heq⟩
      have hd : p.1 = d := congrArg (fun x => x.1) heq
      have hps : p ∈ scoresOf idx q := (sortDesc_perm _).subset hp
      have : (alookup (scoresOf idx q) d).isSome := by
        rw [alookup_isSome_iff]
        exact hd ▸ List.mem_map_of_mem Prod.fst hps
      exact (scoresOf_isSome idx q d).mp this
    · intro hex
      have hsome : (alookup (scoresOf idx q) d).isSome :=
        (scoresOf_isSome idx q d).mpr hex
      obtain ⟨s, hs⟩ := Option.isSome_iff_exists.mp hsome
      have hmem : (d, s) ∈ scoresOf idx q :=
        (alookup_eq_some_iff_mem _ (scoresOf_nodup idx q) d s).mp hs
      have hmem' : (d, s) ∈ sortDesc (scoresOf idx q) :=
        (sortDesc_perm _).mem_iff.mpr hmem
      refine ⟨s, (alookup idx.metadata d).getD [], ?_⟩
      rw [CustomIndex.search_index]
      exact List.mem_map_of_mem
        (fun p => (p.1, p.2, (alookup idx.metadata p.1).getD [])) hmem'
  · conv_lhs => rw [CustomIndex.search_index]
    conv_rhs => rw [CustomIndex.search_index, List.map_map]
    apply List.map_congr_left
    intro p hp
    have hmem : p ∈ scoresOf idx q := (sortDesc_perm _).subset hp
    have hval : alookup (scoresOf idx q) p.1 = some p.2 :=
      (alookup_eq_some_iff_mem _ (scoresOf_nodup idx q) p.1 p.2).mpr
        (by simpa using hmem)
    have hv : valueOf (scoresOf idx q) p.1 = p.2 := by simp [valueOf, hval]
    simp only [Function.comp_apply]
    rw [← scoresOf_value idx q p.1, hv]

/-! ### C2: normalization bounds of the orchestrator -/

lemma le_foldl_max (xs : List ℝ) : ∀ a : ℝ, a ≤ xs.foldl max a := by
  induction xs with
  | nil => intro a; exact le_refl a
  | cons x xs ih => intro a; exact le_trans (le_max_left a x) (ih (max a x))

lemma mem_le_foldl_max (xs : List ℝ) : ∀ (a x : ℝ), x ∈ xs → x ≤ xs.foldl max a := by
  induction xs with
  | nil => intro a x hx; simp at hx
  | cons y ys ih =>
    intro a x hx
    rcases List.mem_cons.mp hx with rfl | hmem
    · exact le_trans (le_max_right a x) (le_foldl_max ys (max a x))
    · exact ih (max a y) x hmem

lemma foldl_max_mem (xs : List ℝ) : ∀ a : ℝ, xs.foldl max a = a ∨ xs.foldl max a ∈ xs := by
  induction xs with
  | nil => intro a; exact Or.inl rfl
  | cons x xs ih =>
    intro a
    rcases ih (max a x) with h | h
    · rcases max_choice a x with hm | hm
      · exact Or.inl (by rw [List.foldl_cons, h, hm])
      · exact Or.inr (by rw [List.foldl_cons, h, hm]; exact List.mem_cons_self x xs)
    · exact Or.inr (List.mem_cons_of_mem x h)

lemma foldl_min_le (xs : List ℝ) : ∀ a : ℝ, xs.foldl min a ≤ a := by
  induction xs with
  | nil => intro a; exact le_refl a
  | cons x xs ih => intro a; exact le_trans (ih (min a x)) (min_le_left a x)

lemma foldl_min_le_mem (xs : List ℝ) : ∀ (a x : ℝ), x ∈ xs → xs.foldl min a ≤ x := by
  induction xs with
  | nil => intro a x hx; simp at hx
  | cons y ys ih =>
    intro a x hx
    rcases List.mem_cons.mp hx with rfl | hmem
    · exact le_trans (foldl_min_le ys (min a x)) (min_le_right a x)
    · exact ih (min a y) x hmem

lemma foldl_min_mem (xs : List ℝ) : ∀ a : ℝ, xs.foldl min a = a ∨ xs.foldl min a ∈ xs := by
  induction xs with
  | nil => intro a; exact Or.inl rfl
  | cons x xs ih =>
    intro a
    rcases ih (min a x) with h | h
    · rcases min_choice a x with hm | hm
      · exact Or.inl (by rw [List.foldl_cons, h, hm])
      · exact Or.inr (by rw [List.foldl_cons, h, hm]; exact List.mem_cons_self x xs)
    · exact Or.inr (List.mem_cons_of_mem x h)

lemma listMax_ge (l : List ℝ) (x : ℝ) (hx : x ∈ l) : x ≤ listMax l := by
  cases l with
  | nil => simp at hx
  | cons y ys =>
    rcases List.mem_cons.mp hx with rfl | hmem
    · exact le_foldl_max ys x
    · exact mem_le_foldl_max ys y x hmem

lemma listMax_mem (l : List ℝ) (h : l ≠ []) : listMax l ∈ l := by
  cases l with
  | nil => exact absurd rfl h
  | cons y ys =>
    rcases foldl_max_mem ys y with hm | hm
    · rw [listMax, hm]; exact List.mem_cons_self y ys
    · exact List.mem_cons_of_mem y hm

lemma listMin_le (l : List ℝ) (x : ℝ) (hx : x ∈ l) : listMin l ≤ x := by
  cases l with
  | nil => simp at hx
  | cons y ys =>
    rcases List.mem_cons.mp hx with rfl | hmem
    · exact foldl_min_le ys x
    · exact foldl_min_le_mem ys y x hmem

lemma listMin_mem (l : List ℝ) (h : l ≠ []) : listMin l ∈ l := by
  cases l with
  | nil => exact absurd rfl h
  | cons y ys =>
    rcases foldl_min_mem ys y with hm | hm
    · rw [listMin, hm]; exact List.mem_cons_self y ys
    · exact List.mem_cons_of_mem y hm

/-- C2: whenever the orchestrator returns a non-empty mapping, every returned
score lies in `[0, 1]`; a doc_id whose raw summed-BM25 score is the maximum is
mapped to exactly `1`; and if all raw scores are equal, every document is
mapped to `1` (the forced-zero minimum rule). -/
theorem C2_normalization_bounds (i : CustomIndex) (q : String)
    (hne : search_index q (some i) ≠ []) :
    (∀ p ∈ search_index q (some i), 0 ≤ p.2 ∧ p.2 ≤ 1) ∧
    (∀ p ∈ rawRes i q, p.2 = listMax ((rawRes i q).map Prod.snd) →
      (p.1, (1:ℝ)) ∈ search_index q (some i)) ∧
    ((∀ p ∈ rawRes i q, ∀ p' ∈ rawRes i q, p.2 = p'.2) →
      ∀ p ∈ search_index q (some i), p.2 = 1) := by
  classical
  by_cases hemp : (rawRes i q).isEmpty
  · exact absurd (by simp [search_index, hemp]) hne
  by_cases hz : listMax ((rawRes i q).map Prod.snd) -
      minScore ((rawRes i q).map Prod.snd) = 0
  · exact absurd (by simp [search_index, hemp, hz]) hne
  have heq : search_index q (some i) = (rawRes i q).map (fun p =>
      (p.1, (p.2 - minScore ((rawRes i q).map Prod.snd)) /
        (listMax ((rawRes i q).map Prod.snd) -
          minScore ((rawRes i q).map Prod.snd)))) := by
    simp [search_index, hemp, hz]
  set res := rawRes i q with hres
  set vals := res.map Prod.snd with hvals
  set M := listMax vals with hM
  set m := minScore vals with hm
  have hnil : res ≠ [] := by
    intro h; rw [h] at hemp; exact hemp rfl
  have hvnil : vals ≠ [] := by
    rw [hvals]; intro h; exact hnil (List.map_eq_nil.mp h)
  have hmM : listMin vals ≤ M := listMax_ge vals (listMin vals) (listMin_mem vals hvnil)
  by_cases hlt : listMin vals < M
  · have hmdef : m = listMin vals := by rw [hm, minScore, ← hM, if_pos hlt]
    have hdenom : 0 < M - m := by rw [hmdef]; linarith
    refine ⟨?_, ?_, ?_⟩
    · intro p hp
      rw [heq] at hp
      rcases List.mem_map.mp hp with ⟨p0, hp0, rfl⟩
      have hv : p0.2 ∈ vals := by rw [hvals]; exact List.mem_map_of_mem Prod.snd hp0
      have h1 : listMin vals ≤ p0.2 := listMin_le vals p0.2 hv
      have h2 : p0.2 ≤ M := listMax_ge vals p0.2 hv
      constructor
      · apply div_nonneg _ hdenom.le
        rw [hmdef]; linarith
      · rw [div_le_one hdenom]
        rw [hmdef]; linarith
    · intro p hp hmax
      rw [heq]
      have himg : (fun p => (p.1, (p.2 - m) / (M - m))) p = (p.1, (1:ℝ)) := by
        simp only [Prod.mk.injEq]
        refine ⟨trivial, ?_⟩
        rw [hmax]
        exact div_self hz
      rw [← himg]
      exact List.mem_map_of_mem _ hp
    · intro huni p hp
      exfalso
      obtain ⟨pm, hpm, hpm2⟩ := List.mem_map.mp (hvals ▸ listMin_mem vals hvnil)
      obtain ⟨pM, hpM, hpM2⟩ := List.mem_map.mp (hvals ▸ listMax_mem vals hvnil)
      have hEq := huni pm hpm pM hpM
      rw [hpm2, hpM2] at hEq
      exact absurd (hEq ▸ hlt) (lt_irrefl _)
  · have hmdef : m = 0 := by rw [hm, minScore, ← hM, if_neg hlt]
    have hMv : ∀ v ∈ vals, v = M := by
      intro v hv
      have h1 := listMin_le vals v hv
      have h2 := listMax_ge vals v hv
      have h3 : listMin vals = M := le_antisymm hmM (not_lt.mp hlt)
      linarith
    have hMne : M - m ≠ 0 := hz
    refine ⟨?_, ?_, ?_⟩
    · intro p hp
      rw [heq] at hp
      rcases List.mem_map.mp hp with ⟨p0, hp0, rfl⟩
      have hv := hMv p0.2 (by rw [hvals]; exact List.mem_map_of_mem Prod.snd hp0)
      simp only
      rw [hv, div_self hMne]
      norm_num
    · intro p hp hmax
      rw [heq]
      have himg : (fun p => (p.1, (p.2 - m) / (M - m))) p = (p.1, (1:ℝ)) := by
        simp only [Prod.mk.injEq]
        refine ⟨trivial, ?_⟩
        rw [hmax]
        exact div_self hz
      rw [← himg]
      exact List.mem_map_of_mem _ hp
    · intro huni p hp
      rw [heq] at hp
      rcases List.mem_map.mp hp with ⟨p0, hp0, rfl⟩
      have hv := hMv p0.2 (by rw [hvals]; exact List.mem_map_of_mem Prod.snd hp0)
      simp only
      rw [hv, div_self hMne]

lemma w2_scores : scoresOf (buildIndex w2docs) "aa" =
    [("d", (buildIndex w2docs).bm25 "d" "aa" 1)] := by
  have hq : queryTokens "aa" = ["aa"] := by decide
  have hp : postings (buildIndex w2docs) "aa" = [("d", 1)] := by decide
  rw [scoresOf, hq]
  simp [hp, bumpScore]

lemma w2_search : (buildIndex w2docs).search_index "aa" =
    [("d", (buildIndex w2docs).bm25 "d" "aa" 1, [])] := by
  have hmd : alookup (buildIndex w2docs).metadata "d" = some [] := by decide
  rw [CustomIndex.search_index, w2_scores]
  simp [sortDesc, insertDesc, hmd]

lemma w2_raw : rawRes (buildIndex w2docs) "aa" =
    [("d", (buildIndex w2docs).bm25 "d" "aa" 1)] := by
  rw [rawRes, w2_search]
  simp [alookup]

lemma w2_bm25_pos : 0 < (buildIndex w2docs).bm25 "d" "aa" 1 := by
  have h1 : alookup (buildIndex w2docs).inverted_index "aa" = some [("d", 1)] := by decide
  have h2 : alookup (buildIndex w2docs).doc_lengths "d" = some 1 := by decide
  have h3 : (buildIndex w2docs).doc_lengths.length = 1 := by decide
  have h6 : (buildIndex w2docs).avg_doc_length = 1 := by decide
  rw [CustomIndex.bm25, h1, h2, h3, (buildIndex_k1_b w2docs).1, (buildIndex_k1_b w2docs).2, h6]
  apply mul_pos
  · apply Real.log_pos
    norm_num
  · push_cast
    norm_num

lemma w2_top : search_index "aa" (some (buildIndex w2docs)) = [("d", 1)] := by
  have hv := w2_bm25_pos
  have hM : listMax ([("d", (buildIndex w2docs).bm25 "d" "aa" 1)].map Prod.snd) =
      (buildIndex w2docs).bm25 "d" "aa" 1 := by simp [listMax]
  have hmin : listMin ([("d", (buildIndex w2docs).bm25 "d" "aa" 1)].map Prod.snd) =
      (buildIndex w2docs).bm25 "d" "aa" 1 := by simp [listMin]
  have hms : minScore ([("d", (buildIndex w2docs).bm25 "d" "aa" 1)].map Prod.snd) = 0 := by
    rw [minScore, hM, hmin, if_neg (lt_irrefl _)]
  simp only [search_index, w2_raw, hms, hM]
  rw [if_neg (by simp), if_neg (by rw [sub_zero]; exact hv.ne')]
  simp [sub_zero, div_self hv.ne']

/-- Witness for C2 on the one-document corpus `w2docs` and query `"aa"`:
the result is non-empty and the score of `"d"` lies in `[0, 1]`. -/
theorem C2_normalization_bounds_witness :
    search_index "aa" (some (buildIndex w2docs)) ≠ [] ∧
    (0 ≤ (("d", (1:ℝ)) : String × ℝ).2 ∧ (("d", (1:ℝ)) : String × ℝ).2 ≤ 1) := by
  have hne : search_index "aa" (some (buildIndex w2docs)) ≠ [] := by
    rw [w2_top]; simp
  exact ⟨hne, (C2_normalization_bounds (buildIndex w2docs) "aa" hne).1
    ("d", 1) (by rw [w2_top]; simp)⟩

/-- C7: an empty snippet list yields the absent index `None`, and searching
with the absent index yields the empty mapping, without raising. -/
theorem C7_empty_corpus (len_repo_cache_dir : Nat) :
    prepare_index_from_snippets [] len_repo_cache_dir = none ∧
    ∀ q : String, search_index q none = [] := by
  constructor
  · rfl
  · intro q; rfl

/-- C8: recoverable failures are absorbed at the orchestrator / builder
boundary: the orchestrator's handler converts any exception other than
`SystemExit` into the empty mapping and re-raises `SystemExit`; and a
`FileNotFoundError` raised inside the builder's `try` block (necessarily in
the tokenization loop, which precedes every `add_document` call) is caught,
returning the index holding exactly the documents added before the failure —
none — instead of propagating. -/
theorem C8_exception_policy :
    (∀ e : PyExc, e ≠ .systemExit → searchIndexHandler (.error e) = .ok []) ∧
    searchIndexHandler (.error .systemExit) = .error .systemExit ∧
    (∀ (tok : String → Except PyExc (List String)) (snips : List Snippet) (n : Nat),
      firstPassExc tok (snippets_to_docs snips n) = .error .fileNotFound →
      prepareIndexExc tok snips n = .ok (some CustomIndex.new) ∧
      CustomIndex.new.doc_lengths = []) := by
  refine ⟨?_, rfl, ?_⟩
  · intro e he
    cases e with
    | systemExit => exact absurd rfl he
    | fileNotFound => rfl
    | other m => rfl
  · intro tok snips n hfp
    refine ⟨?_, rfl⟩
    rw [prepareIndexExc]
    by_cases hlen : (snippets_to_docs snips n).length = 0
    · exfalso
      rw [List.length_eq_zero.mp hlen] at hfp
      exact Except.noConfusion hfp
    · rw [if_neg hlen, hfp]

/-- Witness for C8: a non-`SystemExit` exception becomes the empty mapping,
and a builder whose tokenizer raises `FileNotFoundError` returns the fresh
empty index. -/
theorem C8_exception_policy_witness :
    searchIndexHandler (.error (.other "boom")) = .ok [] ∧
    prepareIndexExc (fun _ => .error .fileNotFound)
      [{ file_path := "f.py", content := "aa bb", start := 1, stop := 2 }] 0 =
      .ok (some CustomIndex.new) := by
  refine ⟨C8_exception_policy.1 (.other "boom") (by simp), ?_⟩
  exact (C8_exception_policy.2.2 (fun _ => .error .fileNotFound)
    [{ file_path := "f.py", content := "aa bb", start := 1, stop := 2 }] 0 rfl).1

/-! ### C10: safety of reachable indexes -/

lemma alookup_append_of_some {β : Type _} (l₁ l₂ : List (String × β)) (d : String)
    (v : β) (h : alookup l₁ d = some v) : alookup (l₁ ++ l₂) d = some v := by
  induction l₁ with
  | nil => exact absurd h (by simp [alookup])
  | cons p ps ih =>
    obtain ⟨k, w⟩ := p
    by_cases hk : k = d
    · subst hk
      simp [alookup] at h ⊢
      exact h
    · simp [alookup, hk] at h ⊢
      exact ih h

lemma alookup_append_of_none {β : Type _} (l₁ l₂ : List (String × β)) (d : String)
    (h : alookup l₁ d = none) : alookup (l₁ ++ l₂) d = alookup l₂ d := by
  induction l₁ with
  | nil => simp
  | cons p ps ih =>
    obtain ⟨k, w⟩ := p
    by_cases hk : k = d
    · subst hk; simp [alookup] at h
    · simp [alookup, hk] at h ⊢
      exact ih h

lemma dictInsert_of_not_mem {β : Type _} (dl : List (String × β)) (k : String)
    (v : β) (h : alookup dl k = none) : dictInsert dl k v = dl ++ [(k, v)] := by
  induction dl with
  | nil => rfl
  | cons p ps ih =>
    obtain ⟨k', w⟩ := p
    by_cases hk : k' = k
    · subst hk; simp [alookup] at h
    · simp only [alookup, if_neg hk] at h
      simp [dictInsert, hk, ih h]

lemma bump_prop (P : String → Prop) (t : String) (ht : P t) :
    ∀ (acc : List (String × Nat)), (∀ p ∈ acc, 1 ≤ p.2 ∧ P p.1) →
    ∀ p ∈ bump acc t, 1 ≤ p.2 ∧ P p.1 := by
  intro acc
  induction acc with
  | nil =>
    intro _ p hp
    simp only [bump, List.mem_singleton] at hp
    subst hp
    exact ⟨le_refl 1, ht⟩
  | cons q qs ih =>
    obtain ⟨k, n⟩ := q
    intro hacc p hp
    by_cases hk : k = t
    · subst hk
      simp only [bump, if_pos rfl] at hp
      cases hp with
      | head => exact ⟨by omega, (hacc (k, n) (List.mem_cons_self _ _)).2⟩
      | tail _ hp => exact hacc p (List.mem_cons_of_mem _ hp)
    · simp only [bump, if_neg hk] at hp
      cases hp with
      | head => exact hacc (k, n) (List.mem_cons_self _ _)
      | tail _ hp => exact ih (fun q hq => hacc q (List.mem_cons_of_mem _ hq)) p hp

lemma countTokens_prop (ts : List String) :
    ∀ p ∈ countTokens ts, 1 ≤ p.2 ∧ p.1 ∈ ts := by
  rw [countTokens]
  suffices h : ∀ (us : List String) (acc : List (String × Nat)),
      (∀ u ∈ us, u ∈ ts) → (∀ p ∈ acc, 1 ≤ p.2 ∧ p.1 ∈ ts) →
      ∀ p ∈ us.foldl bump acc, 1 ≤ p.2 ∧ p.1 ∈ ts by
    exact h ts [] (fun u hu => hu) (by simp)
  intro us
  induction us with
  | nil => intro acc _ hacc p hp; exact hacc p hp
  | cons u us ih =>
    intro acc hus hacc p hp
    exact ih (bump acc u) (fun x hx => hus x (List.mem_cons_of_mem _ hx))
      (bump_prop _ u (hus u (List.mem_cons_self _ _)) acc hacc) p hp

lemma alookup_bump_self (acc : List (String × Nat)) (t : String) :
    alookup (bump acc t) t = some ((alookup acc t).getD 0 + 1) := by
  induction acc with
  | nil => simp [bump, alookup]
  | cons q qs ih =>
    obtain ⟨k, n⟩ := q
    by_cases hk : k = t
    · subst hk; simp [bump, alookup]
    · simp [bump, alookup, hk, ih]

lemma alookup_bump_other (acc : List (String × Nat)) (t e : String) (h : e ≠ t) :
    alookup (bump acc t) e = alookup acc e := by
  have hte : ¬ t = e := fun hte => h hte.symm
  induction acc with
  | nil => simp [bump, alookup, hte]
  | cons q qs ih =>
    obtain ⟨k, n⟩ := q
    by_cases hk : k = t
    · subst hk; simp [bump, alookup, hte]
    · simp [bump, alookup, hk, ih]

lemma bump_nodup (acc : List (String × Nat)) (t : String)
    (h : (acc.map Prod.fst).Nodup) : ((bump acc t).map Prod.fst).Nodup := by
  induction acc with
  | nil => simp [bump]
  | cons q qs ih =>
    obtain ⟨k, n⟩ := q
    simp only [List.map_cons, List.nodup_cons] at h
    by_cases hk : k = t
    · subst hk
      simpa [bump, List.nodup_cons] using h
    · simp only [bump, if_neg hk, List.map_cons, List.nodup_cons]
      refine ⟨?_, ih h.2⟩
      intro hmem
      have : (alookup (bump qs t) k).isSome := (alookup_isSome_iff _ k).mpr hmem
      rw [alookup_bump_other qs t k hk] at this
      exact h.1 ((alookup_isSome_iff qs k).mp this)

lemma countTokens_nodup (ts : List String) :
    ((countTokens ts).map Prod.fst).Nodup := by
  rw [countTokens]
  suffices h : ∀ (us : List String) (acc : List (String × Nat)),
      (acc.map Prod.fst).Nodup → ((us.foldl bump acc).map Prod.fst).Nodup by
    exact h ts [] (by simp)
  intro us
  induction us with
  | nil => intro acc h; exact h
  | cons u us ih => intro acc h; exact ih (bump acc u) (bump_nodup acc u h)

lemma alookup_postingAdd_self (inv : List (String × List (String × Nat)))
    (k : String) (e : String × Nat) :
    alookup (postingAdd inv k e) k = some ((alookup inv k).getD [] ++ [e]) := by
  induction inv with
  | nil => simp [postingAdd, alookup]
  | cons q qs ih =>
    obtain ⟨k', l⟩ := q
    by_cases hk : k' = k
    · subst hk; simp [postingAdd, alookup]
    · simp [postingAdd, alookup, hk, ih]

lemma alookup_postingAdd_other (inv : List (String × List (String × Nat)))
    (k e' : String) (e : String × Nat) (h : e' ≠ k) :
    alookup (postingAdd inv k e) e' = alookup inv e' := by
  have hke : ¬ k = e' := fun hke => h hke.symm
  induction inv with
  | nil => simp [postingAdd, alookup, hke]
  | cons q qs ih =>
    obtain ⟨k', l⟩ := q
    by_cases hk : k' = k
    · subst hk; simp [postingAdd, alookup, hke]
    · simp [postingAdd, alookup, hk, ih]

lemma foldl_postingAdd (title : String) :
    ∀ (counter : List (String × Nat)) (inv : List (String × List (String × Nat))),
    (counter.map Prod.fst).Nodup →
    ∀ t : String,
      (∀ cnt, (t, cnt) ∈ counter →
        alookup (counter.foldl (fun i p => postingAdd i p.1 (title, p.2)) inv) t =
          some ((alookup inv t).getD [] ++ [(title, cnt)])) ∧
      (t ∉ counter.map Prod.fst →
        alookup (counter.foldl (fun i p => postingAdd i p.1 (title, p.2)) inv) t =
          alookup inv t) := by
  intro counter
  induction counter with
  | nil =>
    intro inv _ t
    exact ⟨fun cnt h => absurd h (by simp), fun _ => rfl⟩
  | cons q qs ih =>
    obtain ⟨k, c⟩ := q
    intro inv hnd t
    simp only [List.map_cons, List.nodup_cons] at hnd
    constructor
    · intro cnt hmem
      rcases List.mem_cons.mp hmem with heq | hmem2
      · rw [Prod.mk.injEq] at heq
        obtain ⟨rfl, rfl⟩ := heq
        rw [List.foldl_cons]
        have hu := (ih (postingAdd inv t (title, cnt)) hnd.2 t).2 hnd.1
        rw [hu]
        exact alookup_postingAdd_self inv t (title, cnt)
      · have htk : t ≠ k := by
          intro h
          subst h
          have hmm : (t, cnt).1 ∈ List.map Prod.fst qs :=
            List.mem_map_of_mem Prod.fst hmem2
          exact hnd.1 hmm
        rw [List.foldl_cons]
        have hu := (ih (postingAdd inv k (title, c)) hnd.2 t).1 cnt hmem2
        rw [hu, alookup_postingAdd_other inv k t (title, c) htk]
    · intro hnotin
      simp only [List.map_cons, List.mem_cons, not_or] at hnotin
      rw [List.foldl_cons]
      have hu := (ih (postingAdd inv k (title, c)) hnd.2 t).2 hnotin.2
      rw [hu, alookup_postingAdd_other inv k t (title, c) hnotin.1]

lemma add_document_invariant (idx : CustomIndex) (title : String)
    (tokens : List String) (md : Metadata)
    (hfresh : alookup idx.doc_lengths title = none) (hinv : IndexInv idx) :
    IndexInv (idx.add_document title tokens md) ∧
    (idx.add_document title tokens md).doc_lengths =
      idx.doc_lengths ++ [(title, tokens.length)] := by
  obtain ⟨hnd, havg, hpost⟩ := hinv
  have htitle : title ∉ idx.doc_lengths.map Prod.fst := by
    intro hmem
    have h := (alookup_isSome_iff idx.doc_lengths title).mpr hmem
    rw [hfresh] at h
    simp at h
  have hdl : (idx.add_document title tokens md).doc_lengths =
      idx.doc_lengths ++ [(title, tokens.length)] := by
    simp only [CustomIndex.add_document, CustomIndex.index_document]
    exact dictInsert_of_not_mem _ _ _ hfresh
  have hinvix : (idx.add_document title tokens md).inverted_index =
      (countTokens tokens).foldl (fun i p => postingAdd i p.1 (title, p.2))
        idx.inverted_index := by
    simp only [CustomIndex.add_document, CustomIndex.index_document]
  refine ⟨⟨?_, ?_, ?_⟩, hdl⟩
  · rw [hdl, List.map_append]
    refine List.nodup_append.mpr ⟨hnd, by simp, ?_⟩
    intro a ha hb
    simp only [List.map_cons, List.map_nil, List.mem_singleton] at hb
    subst hb
    exact htitle ha
  · simp only [CustomIndex.add_document, CustomIndex.index_document]
  · intro t
    have hcnod := countTokens_nodup tokens
    by_cases hmem : t ∈ (countTokens tokens).map Prod.fst
    · obtain ⟨p, hp, hpt⟩ := List.mem_map.mp hmem
      have hcnt : (t, p.2) ∈ countTokens tokens := by
        rw [← hpt]
        exact hp
      have hfold := (foldl_postingAdd title (countTokens tokens)
        idx.inverted_index hcnod t).1 p.2 hcnt
      have hpt' : postings (idx.add_document title tokens md) t =
          postings idx t ++ [(title, p.2)] := by
        rw [postings, hinvix, hfold]
        rfl
      have htnot : title ∉ (postings idx t).map Prod.fst := by
        intro hm
        obtain ⟨q, hq, hqt⟩ := List.mem_map.mp hm
        obtain ⟨-, l, hl, -⟩ := (hpost t).2 q.1 q.2 (by simpa using hq)
        rw [hqt] at hl
        rw [hfresh] at hl
        exact Option.noConfusion hl
      constructor
      · rw [hpt', List.map_append]
        refine List.nodup_append.mpr ⟨(hpost t).1, by simp, ?_⟩
        intro a ha hb
        simp only [List.map_cons, List.map_nil, List.mem_singleton] at hb
        subst hb
        exact htnot ha
      · intro d tf hdtf
        rw [hpt'] at hdtf
        rcases List.mem_append.mp hdtf with hold | hnew
        · obtain ⟨htf, l, hl, hl1⟩ := (hpost t).2 d tf hold
          exact ⟨htf, l, by rw [hdl]; exact alookup_append_of_some _ _ _ _ hl, hl1⟩
        · simp only [List.mem_singleton, Prod.mk.injEq] at hnew
          obtain ⟨rfl, rfl⟩ := hnew
          refine ⟨(countTokens_prop tokens (t, p.2) hcnt).1, tokens.length, ?_, ?_⟩
          · rw [hdl, alookup_append_of_none _ _ _ hfresh]
            simp [alookup]
          · have hmem' := (countTokens_prop tokens (t, p.2) hcnt).2
            exact List.length_pos.mpr (List.ne_nil_of_mem hmem')
    · have hfold := (foldl_postingAdd title (countTokens tokens)
        idx.inverted_index hcnod t).2 hmem
      have hpt' : postings (idx.add_document title tokens md) t = postings idx t := by
        rw [postings, hinvix, hfold]
        rfl
      rw [hpt']
      refine ⟨(hpost t).1, ?_⟩
      intro d tf hdtf
      obtain ⟨htf, l, hl, hl1⟩ := (hpost t).2 d tf hdtf
      exact ⟨htf, l, by rw [hdl]; exact alookup_append_of_some _ _ _ _ hl, hl1⟩

lemma indexInv_new : IndexInv CustomIndex.new := by
  refine ⟨by simp [CustomIndex.new], by simp [CustomIndex.new, sumLens], ?_⟩
  intro t
  constructor
  · simp [postings, alookup, CustomIndex.new]
  · intro d tf hdtf
    simp [postings, alookup, CustomIndex.new] at hdtf

lemma foldl_add_document_invariant :
    ∀ (docs : List (String × List String × Metadata)) (idx : CustomIndex),
    IndexInv idx →
    (∀ d ∈ docs, alookup idx.doc_lengths d.1 = none) →
    (docs.map (fun d => d.1)).Nodup →
    IndexInv (docs.foldl (fun i d => i.add_document d.1 d.2.1 d.2.2) idx) := by
  intro docs
  induction docs with
  | nil => intro idx h _ _; exact h
  | cons d ds ih =>
    intro idx hinv hfresh hnd
    simp only [List.map_cons, List.nodup_cons] at hnd
    rw [List.foldl_cons]
    have hstep := add_document_invariant idx d.1 d.2.1 d.2.2
      (hfresh d (List.mem_cons_self _ _)) hinv
    apply ih _ hstep.1 _ hnd.2
    intro d' hd'
    rw [hstep.2, alookup_append_of_none _ _ _ (hfresh d' (List.mem_cons_of_mem _ hd'))]
    have hne : ¬ d.1 = d'.1 := by
      intro h
      exact hnd.1 (h ▸ List.mem_map_of_mem (fun x => x.1) hd')
    simp [alookup, hne]

/-- C10 counterexample to the claim over arbitrary `add_document` sequences:
adding title `"a"` twice (second time with no tokens) leaves `"a"` in the
posting list of `"xx"` while its stored length is `0` and `avg_doc_length`
is `0`, so `bm25` reached from `search_index` would divide zero by zero. -/
theorem C10_duplicate_title_counterexample :
    ("a", 1) ∈ postings (buildIndex w10docs) "xx" ∧
    alookup (buildIndex w10docs).doc_lengths "a" = some 0 ∧
    (buildIndex w10docs).avg_doc_length = 0 :=
  ⟨by decide, by decide, by decide⟩

/-- C10 amended: for an index built by `add_document` calls with pairwise
distinct titles, every posting `(d, tf)` of every term has a stored document
length `≥ 1` for `d`, a term frequency `≥ 1`, a posting list no longer than
the document count, and a strictly positive stored average document length —
so both divisions inside `bm25` and the logarithm argument are well-defined
on every path reached from `search_index`. -/
theorem C10_search_safety (docs : List (String × List String × Metadata))
    (hnd : (docs.map (fun d => d.1)).Nodup) :
    ∀ (term d : String) (tf : Nat), (d, tf) ∈ postings (buildIndex docs) term →
      (∃ l, alookup (buildIndex docs).doc_lengths d = some l ∧ 1 ≤ l) ∧
      1 ≤ tf ∧
      (postings (buildIndex docs) term).length ≤ (buildIndex docs).doc_lengths.length ∧
      0 < (buildIndex docs).avg_doc_length := by
  intro term d tf hmem
  have hinv := foldl_add_document_invariant docs CustomIndex.new indexInv_new
    (fun d _ => rfl) hnd
  rw [← buildIndex] at hinv
  obtain ⟨hdl_nd, havg, hpost⟩ := hinv
  obtain ⟨htf, l, hl, hl1⟩ := (hpost term).2 d tf hmem
  refine ⟨⟨l, hl, hl1⟩, htf, ?_, ?_⟩
  · have hnodup := (hpost term).1
    have hsub : (postings (buildIndex docs) term).map Prod.fst ⊆
        (buildIndex docs).doc_lengths.map Prod.fst := by
      intro a ha
      obtain ⟨q, hq, hqa⟩ := List.mem_map.mp ha
      obtain ⟨-, l', hl', -⟩ := (hpost term).2 q.1 q.2 (by simpa using hq)
      subst hqa
      exact (alookup_isSome_iff _ _).mp (by rw [hl']; rfl)
    have hsp := (hnodup.subperm hsub).length_le
    simpa using hsp
  · rw [havg, Rat.mkRat_eq_div]
    have hmem_dl : (d, l) ∈ (buildIndex docs).doc_lengths :=
      (alookup_eq_some_iff_mem _ hdl_nd d l).mp hl
    have hsum : 0 < sumLens (buildIndex docs).doc_lengths := by
      have hls : l ≤ sumLens (buildIndex docs).doc_lengths :=
        List.single_le_sum (fun x _ => Nat.zero_le x) l
          (List.mem_map_of_mem Prod.snd hmem_dl)
      omega
    have hlen : 0 < (buildIndex docs).doc_lengths.length :=
      List.length_pos.mpr (List.ne_nil_of_mem hmem_dl)
    apply div_pos
    · exact_mod_cast hsum
    · exact_mod_cast hlen

/-- Witness for C10 on the two-document, distinct-title corpus `w3docs`. -/
theorem C10_search_safety_witness :
    (∃ l, alookup (buildIndex w3docs).doc_lengths "d" = some l ∧ 1 ≤ l) ∧
    1 ≤ 1 ∧
    (postings (buildIndex w3docs) "aa").length ≤ (buildIndex w3docs).doc_lengths.length ∧
    0 < (buildIndex w3docs).avg_doc_length :=
  C10_search_safety w3docs (by decide) "aa" "d" 1 (by decide)

/-! ### C9: token offsets against the original source string -/

/-- C9 counterexample: in `"x1yz"` the camel-case branch accumulates offsets
by matched-part length and skips the digit, so the token `"yz"` carries
offsets 1..3, which delimit `"1y"`, not `"yz"`. -/
theorem C9_token_offsets_counterexample :
    ¬ (∀ tok ∈ tokenize_call "x1yz",
        String.mk (sliceLowerL "x1yz".data tok.startchar tok.endchar) = tok.text) := by
  decide

lemma digit_not_upper (c : Char) (h : c.isDigit = true) : c.isUpper = false := by
  simp [Char.isDigit, Char.isUpper] at *
  intro h3
  exact absurd (UInt32.le_trans h3 h.2) (by decide)

lemma digit_not_lower (c : Char) (h : c.isDigit = true) : c.isLower = false := by
  simp [Char.isDigit, Char.isLower] at *
  intro h3
  exact absurd (UInt32.le_trans h3 h.2) (by decide)

lemma alpha_of_wordChar (c : Char) (hw : wordChar c = true)
    (hd : c.isDigit = false) (hu : ¬ c = '_') : c.isAlpha = true := by
  rw [wordChar, hd, decide_eq_false hu] at hw
  simpa using hw

/-- Splitting a slice equation at an append boundary. -/
lemma slice_split (x : List Char) : ∀ (y s : List Char) (a : Nat),
    (s.drop a).take (x ++ y).length = x ++ y →
    (s.drop a).take x.length = x ∧ (s.drop (a + x.length)).take y.length = y := by
  induction x with
  | nil =>
    intro y s a h
    exact ⟨rfl, by simpa using h⟩
  | cons c x ih =>
    intro y s a h
    cases hsd : s.drop a with
    | nil =>
      rw [hsd] at h
      exact absurd h (by simp)
    | cons d t =>
      rw [hsd] at h
      simp only [List.cons_append, List.length_cons, List.take_succ_cons,
        List.cons.injEq] at h
      have ht : t = s.drop (a + 1) := by
        have h1 := List.drop_drop 1 a s
        rw [hsd] at h1
        simp only [List.drop_succ_cons, List.drop_zero] at h1
        exact h1
      have ih' := ih y s (a + 1) (by rw [← ht]; exact h.2)
      constructor
      · simp only [List.length_cons, List.take_succ_cons, List.cons.injEq]
        exact ⟨h.1, by rw [ht]; exact ih'.1⟩
      · have : a + (c :: x).length = (a + 1) + x.length := by
          simp [List.length_cons]
          omega
        rw [this]
        exact ih'.2

lemma splitU_ne_nil (s : List Char) : splitU s ≠ [] := by
  cases s with
  | nil => simp [splitU]
  | cons c cs =>
    rw [splitU]
    by_cases hc : c = '_'
    · simp [hc]
    · rw [if_neg hc]
      cases h : splitU cs with
      | nil => simp
      | cons p ps => simp

lemma joinU_splitU (s : List Char) : joinU (splitU s) = s := by
  induction s with
  | nil => rfl
  | cons c cs ih =>
    obtain ⟨q, qs, hq⟩ := List.exists_cons_of_ne_nil (splitU_ne_nil cs)
    by_cases hc : c = '_'
    · subst hc
      have hsp : splitU ('_' :: cs) = [] :: splitU cs := by simp [splitU]
      rw [hsp, hq]
      have hj : joinU ([] :: q :: qs) = [] ++ '_' :: joinU (q :: qs) := by
        simp [joinU]
      rw [hj, ← hq, ih, List.nil_append]
    · have hsp : splitU (c :: cs) = (c :: q) :: qs := by
        simp [splitU, hc, hq]
      rw [hsp]
      cases qs with
      | nil =>
        have hjq : joinU [q] = q := by simp [joinU]
        rw [hq, hjq] at ih
        have hj : joinU [c :: q] = c :: q := by simp [joinU]
        rw [hj, ih]
      | cons q2 qs2 =>
        have hj : joinU ((c :: q) :: q2 :: qs2) = (c :: q) ++ '_' :: joinU (q2 :: qs2) := by
          simp [joinU]
        have hj2 : joinU (q :: q2 :: qs2) = q ++ '_' :: joinU (q2 :: qs2) := by
          simp [joinU]
        rw [hq, hj2] at ih
        rw [hj, List.cons_append, ih]

lemma wordRunsGo_cons_nil (c : Char) (cs : List Char) (i : Nat)
    (hw : wordChar c = true) (hrec : wordRunsGo cs (i + 1) = []) :
    wordRunsGo (c :: cs) i = [(i, [c])] := by
  rw [wordRunsGo, if_pos hw, hrec]

lemma wordRunsGo_cons_cons (c : Char) (cs : List Char) (i : Nat)
    (hw : wordChar c = true) (j : Nat) (run : List Char)
    (rest : List (Nat × List Char))
    (hrec : wordRunsGo cs (i + 1) = (j, run) :: rest) :
    wordRunsGo (c :: cs) i =
      if j = i + 1 then (i, c :: run) :: rest
      else (i, [c]) :: (j, run) :: rest := by
  rw [wordRunsGo, if_pos hw, hrec]

/-- Every word run starts at or after the scan index, is the slice of the
input at its recorded offset, and consists of word characters. -/
lemma wordRunsGo_props : ∀ (cs : List Char) (i : Nat), ∀ p ∈ wordRunsGo cs i,
    i ≤ p.1 ∧ p.2 = (cs.drop (p.1 - i)).take p.2.length ∧
    ∀ c ∈ p.2, wordChar c = true := by
  intro cs
  induction cs with
  | nil => intro i p hp; simp [wordRunsGo] at hp
  | cons c cs ih =>
    intro i p hp
    by_cases hw : wordChar c
    · cases hrec : wordRunsGo cs (i + 1) with
      | nil =>
        rw [wordRunsGo_cons_nil c cs i hw hrec] at hp
        simp only [List.mem_singleton] at hp
        subst hp
        refine ⟨le_refl i, ?_, ?_⟩
        · simp
        · intro a ha
          simp only [List.mem_singleton] at ha
          subst ha
          exact hw
      | cons jr rest =>
        obtain ⟨j, run⟩ := jr
        rw [wordRunsGo_cons_cons c cs i hw j run rest hrec] at hp
        by_cases hj : j = i + 1
        · rw [if_pos hj] at hp
          rcases List.mem_cons.mp hp with heq | hp2
          · subst heq
            have hhead := ih (i + 1) (j, run) (hrec ▸ List.mem_cons_self _ _)
            refine ⟨le_refl i, ?_, ?_⟩
            · simp only [Nat.sub_self, List.drop_zero, List.length_cons,
                List.take_succ_cons, List.cons.injEq]
              refine ⟨trivial, ?_⟩
              have h2 := hhead.2.1
              rw [hj] at h2
              simpa using h2
            · intro a ha
              rcases List.mem_cons.mp ha with ha | ha
              · subst ha; exact hw
              · exact hhead.2.2 a ha
          · have hq := ih (i + 1) p (hrec ▸ List.mem_cons_of_mem _ hp2)
            refine ⟨le_trans (Nat.le_succ i) hq.1, ?_, hq.2.2⟩
            have hk : p.1 - i = (p.1 - (i + 1)) + 1 := by omega
            rw [hk, List.drop_succ_cons]
            exact hq.2.1
        · rw [if_neg hj] at hp
          rcases List.mem_cons.mp hp with heq | hp2
          · subst heq
            refine ⟨le_refl i, by simp, ?_⟩
            intro a ha
            simp only [List.mem_singleton] at ha
            subst ha
            exact hw
          · have hq := ih (i + 1) p (hrec ▸ hp2)
            refine ⟨le_trans (Nat.le_succ i) hq.1, ?_, hq.2.2⟩
            have hk : p.1 - i = (p.1 - (i + 1)) + 1 := by omega
            rw [hk, List.drop_succ_cons]
            exact hq.2.1
    · rw [wordRunsGo, if_neg hw] at hp
      have hq := ih (i + 1) p hp
      refine ⟨le_trans (Nat.le_succ i) hq.1, ?_, hq.2.2⟩
      have hk : p.1 - i = (p.1 - (i + 1)) + 1 := by omega
      rw [hk, List.drop_succ_cons]
      exact hq.2.1

/-- Tokens of the snake-case branch carry offsets that slice the source to
their (lowercased) text, provided the joined parts sit at the branch's
starting offset. -/
lemma emitSnake_slice (s : List Char) (spanStart : Nat) :
    ∀ (parts : List (List Char)) (off pos : Nat),
    (s.drop (spanStart + off)).take (joinU parts).length = joinU parts →
    ∀ tok ∈ (emitSnake spanStart parts off pos).1,
      String.mk (sliceLowerL s tok.startchar tok.endchar) = tok.text := by
  intro parts
  induction parts with
  | nil => intro off pos _ tok htok; simp [emitSnake] at htok
  | cons p ps ih =>
    intro off pos H tok htok
    have hp : (s.drop (spanStart + off)).take p.length = p ∧
        (s.drop (spanStart + off + p.length)).take ('_' :: joinU ps).length =
          '_' :: joinU ps ∨
        ps = [] ∧ (s.drop (spanStart + off)).take p.length = p := by
      cases ps with
      | nil =>
        right
        refine ⟨rfl, ?_⟩
        have hj : joinU [p] = p := by simp [joinU]
        rw [hj] at H
        exact H
      | cons q qs =>
        left
        have hj : joinU (p :: q :: qs) = p ++ '_' :: joinU (q :: qs) := by
          simp [joinU]
        rw [hj] at H
        exact slice_split p ('_' :: joinU (q :: qs)) s (spanStart + off) H
    have hslice : (s.drop (spanStart + off)).take p.length = p := by
      rcases hp with ⟨h1, -⟩ | ⟨-, h1⟩ <;> exact h1
    have htokcase : tok ∈ (emitSnake spanStart (p :: ps) off pos).1 := htok
    rw [emitSnake] at htokcase
    by_cases hv : check_valid_token p
    · rw [if_pos hv] at htokcase
      simp only [List.mem_cons] at htokcase
      rcases htokcase with heq | hrest
      · subst heq
        simp only [sliceLowerL]
        have harith : spanStart + p.length + off - (spanStart + off) = p.length := by
          omega
        have hpos : spanStart + off = spanStart + off := rfl
        simp only [harith]
        rw [hslice]
      · cases ps with
        | nil => simp [emitSnake] at hrest
        | cons q qs =>
          rcases hp with ⟨-, h2⟩ | ⟨hps, -⟩
          · have H' : (s.drop (spanStart + (off + p.length + 1))).take
                (joinU (q :: qs)).length = joinU (q :: qs) := by
              have hsp := slice_split ['_'] (joinU (q :: qs)) s
                (spanStart + off + p.length) (by simpa using h2)
              have : spanStart + off + p.length + ['_'].length =
                  spanStart + (off + p.length + 1) := by simp; omega
              rw [this] at hsp
              exact hsp.2
            exact ih (off + p.length + 1) (pos + 1) H' tok hrest
          · exact absurd hps (by simp)
    · rw [if_neg hv] at htokcase
      cases ps with
      | nil => simp [emitSnake] at htokcase
      | cons q qs =>
        rcases hp with ⟨-, h2⟩ | ⟨hps, -⟩
        · have H' : (s.drop (spanStart + (off + p.length + 1))).take
              (joinU (q :: qs)).length = joinU (q :: qs) := by
            have hsp := slice_split ['_'] (joinU (q :: qs)) s
              (spanStart + off + p.length) (by simpa using h2)
            have : spanStart + off + p.length + ['_'].length =
                spanStart + (off + p.length + 1) := by simp; omega
            rw [this] at hsp
            exact hsp.2
          exact ih (off + p.length + 1) pos H' tok htokcase
        · exact absurd hps (by simp)

/-- Tokens of the camel-case branch carry offsets that slice the source to
their (lowercased) text, provided the concatenated parts sit at the branch's
starting offset. -/
lemma emitCamel_slice (s : List Char) (spanStart : Nat) :
    ∀ (parts : List (List Char)) (off pos : Nat),
    (s.drop (spanStart + off)).take parts.flatten.length = parts.flatten →
    ∀ tok ∈ (emitCamel spanStart parts off pos).1,
      String.mk (sliceLowerL s tok.startchar tok.endchar) = tok.text := by
  intro parts
  induction parts with
  | nil => intro off pos _ tok htok; simp [emitCamel] at htok
  | cons p ps ih =>
    intro off pos H tok htok
    rw [List.flatten_cons] at H
    have hsp := slice_split p ps.flatten s (spanStart + off) H
    have H' : (s.drop (spanStart + (off + p.length))).take ps.flatten.length =
        ps.flatten := by
      have : spanStart + off + p.length = spanStart + (off + p.length) := by omega
      rw [this] at hsp
      exact hsp.2
    rw [emitCamel] at htok
    by_cases hv : check_valid_token p
    · rw [if_pos hv] at htok
      simp only [List.mem_cons] at htok
      rcases htok with heq | hrest
      · subst heq
        simp only [sliceLowerL]
        have harith : spanStart + p.length + off - (spanStart + off) = p.length := by
          omega
        simp only [harith]
        rw [hsp.1]
      · exact ih (off + p.length) (pos + 1) H' tok hrest
    · rw [if_neg hv] at htok
      exact ih (off + p.length) pos H' tok htok

/-- On a non-empty all-alphabetic input, `variable_pattern` matches a
non-empty prefix at the head position. -/
lemma matchAt_alpha (c : Char) (cs : List Char)
    (ha : ∀ x ∈ c :: cs, x.isAlpha = true) :
    ∃ m, matchAt (c :: cs) = some m ∧ m ≠ [] ∧ m = (c :: cs).take m.length := by
  have hc := ha c (List.mem_cons_self _ _)
  by_cases hcu : c.isUpper = true
  · cases cs with
    | nil =>
      refine ⟨[c], ?_, by simp, by simp⟩
      rw [matchAt, if_pos hcu]
    | cons c2 cs2 =>
      by_cases hc2l : c2.isLower = true
      · refine ⟨c :: (c2 :: cs2).takeWhile Char.isLower, ?_, by simp, ?_⟩
        · rw [matchAt, if_pos hcu, if_pos hc2l]
        · have hpre : (c2 :: cs2).takeWhile Char.isLower <+: (c2 :: cs2) :=
            List.takeWhile_prefix _
          obtain ⟨r, hr⟩ := hpre
          exact List.prefix_iff_eq_take.mp ⟨r, by rw [List.cons_append, hr]⟩
      · have hc2 := ha c2 (List.mem_cons_of_mem _ (List.mem_cons_self _ _))
        have hc2f : c2.isLower = false := by
          cases h2 : c2.isLower with
          | false => rfl
          | true => exact absurd h2 hc2l
        have hc2u : c2.isUpper = true := by
          rw [Char.isAlpha, hc2f] at hc2
          simpa using hc2
        have hu2 : (c :: c2 :: cs2).takeWhile Char.isUpper =
            c :: c2 :: cs2.takeWhile Char.isUpper := by
          simp [List.takeWhile_cons, hcu, hc2u]
        have hupre : (c :: c2 :: cs2).takeWhile Char.isUpper <+: (c :: c2 :: cs2) :=
          List.takeWhile_prefix _
        by_cases hrest :
            ((c :: c2 :: cs2).drop
              ((c :: c2 :: cs2).takeWhile Char.isUpper).length).isEmpty = true
        · refine ⟨(c :: c2 :: cs2).takeWhile Char.isUpper, ?_, ?_,
            List.prefix_iff_eq_take.mp hupre⟩
          · rw [matchAt, if_pos hcu, if_neg (by rw [hc2f]; exact Bool.false_ne_true),
              if_pos hrest]
          · rw [hu2]; simp
        · refine ⟨((c :: c2 :: cs2).takeWhile Char.isUpper).dropLast, ?_, ?_, ?_⟩
          · rw [matchAt, if_pos hcu, if_neg (by rw [hc2f]; exact Bool.false_ne_true),
              if_neg hrest, if_pos (by rw [hu2]; simp)]
          · rw [hu2]
            simp
          · have hdp : ((c :: c2 :: cs2).takeWhile Char.isUpper).dropLast <+:
                (c :: c2 :: cs2).takeWhile Char.isUpper := List.dropLast_prefix _
            exact List.prefix_iff_eq_take.mp (hdp.trans hupre)
  · have hcuf : c.isUpper = false := by
      cases h2 : c.isUpper with
      | false => rfl
      | true => exact absurd h2 hcu
    have hcl : c.isLower = true := by
      rw [Char.isAlpha, hcuf] at hc
      simpa using hc
    refine ⟨c :: cs.takeWhile Char.isLower, ?_, by simp, ?_⟩
    · cases cs with
      | nil => rw [matchAt, if_neg hcu, if_pos hcl]
      | cons c2 cs2 => rw [matchAt, if_neg hcu, if_pos hcl]
    · have hpre : cs.takeWhile Char.isLower <+: cs :=
        List.takeWhile_prefix _
      obtain ⟨r, hr⟩ := hpre
      exact List.prefix_iff_eq_take.mp ⟨r, by rw [List.cons_append, hr]⟩

/-- On an all-alphabetic input the `findall` scan tiles the input exactly:
the concatenation of the matched parts is the whole string. -/
lemma findallGo_flatten_alpha : ∀ (fuel : Nat) (s : List Char),
    s.length ≤ fuel → (∀ c ∈ s, c.isAlpha = true) →
    (findallGo fuel s).flatten = s := by
  intro fuel
  induction fuel with
  | zero =>
    intro s hs _
    rw [List.length_eq_zero.mp (Nat.le_zero.mp hs)]
    rfl
  | succ fuel ih =>
    intro s hs halpha
    cases s with
    | nil => rfl
    | cons c cs =>
      obtain ⟨m, hm, hmne, hmpre⟩ := matchAt_alpha c cs halpha
      rw [findallGo, hm]
      rw [List.flatten_cons]
      have hmlen : 1 ≤ m.length := by
        cases m with
        | nil => exact absurd rfl hmne
        | cons a as => simp
      rw [ih ((c :: cs).drop m.length) ?hlen ?halpha2]
      · conv_rhs => rw [← List.take_append_drop m.length (c :: cs)]
        rw [← hmpre]
      case hlen =>
        have hs' : cs.length + 1 ≤ fuel + 1 := by simpa using hs
        simp only [List.length_drop, List.length_cons]
        omega
      case halpha2 =>
        intro x hx
        exact halpha x (List.mem_of_mem_drop hx)

/-- On an all-digit input `variable_pattern` never matches. -/
lemma matchAt_digit (s : List Char) (h : ∀ c ∈ s, c.isDigit = true) :
    matchAt s = none := by
  cases s with
  | nil => rfl
  | cons c cs =>
    have hc := h c (List.mem_cons_self _ _)
    have hcu : c.isUpper = false := digit_not_upper c hc
    have hcl : c.isLower = false := digit_not_lower c hc
    cases cs with
    | nil =>
      rw [matchAt, if_neg (by rw [hcu]; exact Bool.false_ne_true),
        if_neg (by rw [hcl]; exact Bool.false_ne_true)]
    | cons c2 cs2 =>
      rw [matchAt, if_neg (by rw [hcu]; exact Bool.false_ne_true),
        if_neg (by rw [hcl]; exact Bool.false_ne_true)]

lemma findallGo_digit : ∀ (fuel : Nat) (s : List Char),
    (∀ c ∈ s, c.isDigit = true) → findallGo fuel s = [] := by
  intro fuel
  induction fuel with
  | zero => intro s _; rfl
  | succ fuel ih =>
    intro s h
    cases s with
    | nil => rfl
    | cons c cs =>
      rw [findallGo, matchAt_digit (c :: cs) h]
      exact ih cs (fun x hx => h x (List.mem_cons_of_mem _ hx))

/-- Every emitted token comes from the emission of one word run. -/
lemma tokenizeRuns_mem : ∀ (rs : List (Nat × List Char)) (pos : Nat) (tok : Token),
    tok ∈ tokenizeRuns rs pos → ∃ r ∈ rs, ∃ q : Nat, tok ∈ (emitRun r.1 r.2 q).1 := by
  intro rs
  induction rs with
  | nil => intro pos tok htok; simp [tokenizeRuns] at htok
  | cons r rs ih =>
    intro pos tok htok
    obtain ⟨st, run⟩ := r
    rw [tokenizeRuns] at htok
    rcases List.mem_append.mp htok with hl | hr
    · exact ⟨(st, run), List.mem_cons_self _ _, pos, hl⟩
    · obtain ⟨r', hr', q, hq⟩ := ih _ tok hr
      exact ⟨r', List.mem_cons_of_mem _ hr', q, hq⟩

/-- Offset correctness for a single run, under the per-run side condition. -/
lemma emitRun_slice (s : List Char) (st : Nat) (run : List Char) (pos : Nat)
    (hrun : run = (s.drop st).take run.length)
    (hwc : ∀ c ∈ run, wordChar c = true)
    (hcond : run.contains '_' = true ∨ (∀ c ∈ run, c.isDigit = false) ∨
      (∀ c ∈ run, c.isDigit = true)) :
    ∀ tok ∈ (emitRun st run pos).1,
      String.mk (sliceLowerL s tok.startchar tok.endchar) = tok.text := by
  intro tok htok
  rw [emitRun] at htok
  by_cases hu : run.contains '_' = true
  · rw [if_pos hu] at htok
    refine emitSnake_slice s st (splitU run) 0 pos ?_ tok htok
    rw [joinU_splitU, Nat.add_zero]
    exact hrun.symm
  · rw [if_neg hu] at htok
    have hnomem : '_' ∉ run := by
      intro hmem
      exact hu (List.elem_iff.mpr hmem)
    cases hf : variableFindall run with
    | nil =>
      rw [hf] at htok
      by_cases hv : check_valid_token run
      · rw [if_pos hv] at htok
        simp only [List.mem_singleton] at htok
        subst htok
        simp only [sliceLowerL]
        have harith : st + run.length - st = run.length := by omega
        simp only [harith]
        rw [← hrun]
      · rw [if_neg hv] at htok
        simp at htok
    | cons p ps =>
      rw [hf] at htok
      have halpha : ∀ c ∈ run, c.isAlpha = true := by
        rcases hcond with hcond | hcond | hcond
        · exact absurd hcond hu
        · intro c hcmem
          exact alpha_of_wordChar c (hwc c hcmem) (hcond c hcmem)
            (fun hceq => hnomem (hceq ▸ hcmem))
        · exfalso
          have := findallGo_digit run.length run hcond
          rw [variableFindall, this] at hf
          exact List.noConfusion hf
      have hflat : (p :: ps).flatten = run := by
        rw [← hf, variableFindall]
        exact findallGo_flatten_alpha run.length run (le_refl _) halpha
      refine emitCamel_slice s st (p :: ps) 0 pos ?_ tok htok
      rw [hflat, Nat.add_zero]
      exact hrun.symm

/-- C9 amended: token offsets delimit the (lowercased) source text of the
token for every all-ASCII input whose word runs each contain an underscore,
contain no digit, or consist only of digits. (The unrestricted claim fails:
in a run with no underscore, the camel-case branch accumulates offsets by
matched-part length and drifts past every character that
`variable_pattern`'s ASCII character classes skip — digits, as in the
counterexample `"x1yz"`, and equally non-ASCII word characters such as the
`é` of `"éabc"`, whence the ASCII restriction, on which the embedded `\w`
is exact.) -/
theorem C9_token_offsets_amended (code : String)
    (hascii : ∀ c ∈ code.data, c.toNat ≤ 127)
    (h : ∀ p ∈ wordRuns code.data,
      p.2.contains '_' = true ∨ (∀ c ∈ p.2, c.isDigit = false) ∨
        (∀ c ∈ p.2, c.isDigit = true)) :
    ∀ tok ∈ tokenize_call code,
      String.mk (sliceLowerL code.data tok.startchar tok.endchar) = tok.text := by
  intro tok htok
  rw [tokenize_call] at htok
  obtain ⟨r, hr, q, hq⟩ := tokenizeRuns_mem (wordRuns code.data) 0 tok htok
  have hprops := wordRunsGo_props code.data 0 r hr
  refine emitRun_slice code.data r.1 r.2 q ?_ hprops.2.2 (h r hr) tok hq
  have h2 := hprops.2.1
  rw [Nat.sub_zero] at h2
  exact h2

/-- Witness for C9 (amended) on `"getUserName"`: the first token `"get"`
carries offsets 0..3 and the slice of the source there is `"get"`. -/
theorem C9_token_offsets_amended_witness :
    String.mk (sliceLowerL "getUserName".data 0 3) = "get" :=
  C9_token_offsets_amended "getUserName" (by decide) (by decide)
    { text := "get", pos := 0, startchar := 0, end_pos := 1, endchar := 3 }
    (by decide)

end Sweep
